import Mathlib

/-!
# Verification of the hypertree split-search and tree-growth engine

Shallow embedding of `src/node.py` and `src/source.py` (the `Node` and
`Source` classes of the hypertree repository).  Real numbers are modelled
by `ℚ`; the IEEE special values (NaN, ±∞) that the code manipulates through
numpy are modelled explicitly by the type `XV` below.  Vectorised numpy
operations over the evaluation dimensions act componentwise, so the
incremental split-evaluation pass is embedded one evaluation dimension at a
time (each dimension's scalar recurrence is exactly the component of the
vectorised recurrence).

The helper module `utils.py` (imported by both source files) is not part of
the sources; the helpers used by the embedded code
(`increment_mean_and_var_sum`, `split_sorted_indices`) are modelled from the
specification and marked as such in their doc comments.
-/

namespace Hypertree

/-! ## Rational list statistics (direct, non-incremental definitions) -/

/-- Arithmetic mean of a list of rationals (`np.mean`); `0` on the empty
list (division by zero in `ℚ`). -/
def meanQ (l : List ℚ) : ℚ := l.sum / l.length

/-- Sum of squares of a list of rationals. -/
def sqSumQ (l : List ℚ) : ℚ := (l.map (fun y => y ^ 2)).sum

/-- Population variance sum: `Σ (y - mean)²` over the list.  This is the
`var_sum = n * var(ddof=0)` quantity maintained by the code. -/
def varSumQ (l : List ℚ) : ℚ := (l.map (fun y => (y - meanQ l) ^ 2)).sum

theorem meanQ_nil : meanQ [] = 0 := by simp [meanQ]

theorem varSumQ_nil : varSumQ [] = 0 := by simp [varSumQ]

theorem varSumQ_singleton (x : ℚ) : varSumQ [x] = 0 := by
  simp [varSumQ, meanQ]

theorem sum_map_sub_sq (l : List ℚ) (c : ℚ) :
    (l.map (fun y => (y - c) ^ 2)).sum
      = sqSumQ l - 2 * c * l.sum + l.length * c ^ 2 := by
  induction l with
  | nil => simp [sqSumQ]
  | cons x t ih =>
      simp only [List.map_cons, List.sum_cons, List.length_cons, sqSumQ] at *
      rw [ih]
      push_cast
      ring

theorem varSumQ_eq_sqSum (l : List ℚ) (h : l ≠ []) :
    varSumQ l = sqSumQ l - l.sum ^ 2 / l.length := by
  have hn : (l.length : ℚ) ≠ 0 := by
    have : l.length ≠ 0 := by simpa [List.length_eq_zero] using h
    exact_mod_cast this
  rw [varSumQ, sum_map_sub_sq, meanQ]
  field_simp
  ring

/-! ## Welford-style incremental update

Modelled from the spec: `increment_mean_and_var_sum` lives in the
repository's `utils.py`, which is not among the given sources.  The spec
prescribes "the standard streaming update rule for adding a sample to a
running mean/covariance (Welford-style incremental update) and the
symmetric rule for removing a sample from the complementary running
aggregate"; `n_new` is the population count *after* the update, `sign = 1`
adds the sample `x` and `sign = -1` removes it. -/
def incMeanVarSum (nNew : ℚ) (m v x sign : ℚ) : ℚ × ℚ :=
  let m' := m + sign * (x - m) / nNew
  (m', v + sign * (x - m) * (x - m'))

/-- Adding one sample with the Welford-style rule matches the direct
recomputation of mean and variance sum on the extended list. -/
theorem incMeanVarSum_add (l : List ℚ) (x : ℚ) :
    incMeanVarSum (l.length + 1) (meanQ l) (varSumQ l) x 1
      = (meanQ (l ++ [x]), varSumQ (l ++ [x])) := by
  rcases eq_or_ne l [] with rfl | h
  · simp [incMeanVarSum, meanQ, varSumQ]
  · have hn : (l.length : ℚ) ≠ 0 := by
      have : l.length ≠ 0 := by simpa [List.length_eq_zero] using h
      exact_mod_cast this
    have hn1 : (l.length : ℚ) + 1 ≠ 0 := by positivity
    have hne : l ++ [x] ≠ [] := by simp
    have h1 : meanQ (l ++ [x]) = (l.sum + x) / (l.length + 1) := by
      simp [meanQ]
    have h2 : varSumQ (l ++ [x])
        = sqSumQ l + x ^ 2 - (l.sum + x) ^ 2 / (l.length + 1) := by
      rw [varSumQ_eq_sqSum _ hne]
      simp [sqSumQ]
    rw [incMeanVarSum, varSumQ_eq_sqSum _ h, h1, h2, meanQ]
    field_simp
    constructor
    · ring
    · ring

/-- Removing the head sample with the symmetric (sign `-1`) rule matches the
direct recomputation of mean and variance sum on the tail. -/
theorem incMeanVarSum_remove (l : List ℚ) (x : ℚ) (h : l ≠ []) :
    incMeanVarSum l.length (meanQ (x :: l)) (varSumQ (x :: l)) x (-1)
      = (meanQ l, varSumQ l) := by
  have hn : (l.length : ℚ) ≠ 0 := by
    have : l.length ≠ 0 := by simpa [List.length_eq_zero] using h
    exact_mod_cast this
  have hn1 : (l.length : ℚ) + 1 ≠ 0 := by positivity
  have hxl : (x :: l) ≠ [] := by simp
  have h1 : meanQ (x :: l) = (x + l.sum) / (l.length + 1) := by
    simp [meanQ]
  have h2 : varSumQ (x :: l)
      = x ^ 2 + sqSumQ l - (x + l.sum) ^ 2 / (l.length + 1) := by
    rw [varSumQ_eq_sqSum _ hxl]
    simp [sqSumQ]
  rw [incMeanVarSum, varSumQ_eq_sqSum _ h, h1, h2, meanQ]
  field_simp
  constructor
  · ring
  · ring

/-! ## Extended values: rationals plus the IEEE specials NaN and ±∞

The code stores NaN bounding boxes for empty nodes and ±∞ default maximal
bounding boxes, and compares/subtracts/divides such values through numpy.
`XV` models a float as either a finite rational or one of the specials,
with the IEEE comparison and arithmetic conventions (any comparison with
NaN is false, NaN propagates through arithmetic, `∞ - ∞ = NaN`, …). -/
inductive XV where
  | nan : XV
  | ninf : XV
  | pinf : XV
  | fin : ℚ → XV
deriving DecidableEq, Repr

namespace XV

/-- IEEE `≤` as a boolean (false whenever NaN is involved). -/
def leb : XV → XV → Bool
  | nan, _ => false
  | _, nan => false
  | ninf, _ => true
  | _, ninf => false
  | _, pinf => true
  | pinf, _ => false
  | fin a, fin b => a ≤ b

/-- IEEE `<` as a boolean (false whenever NaN is involved). -/
def ltb : XV → XV → Bool
  | nan, _ => false
  | _, nan => false
  | ninf, ninf => false
  | ninf, _ => true
  | _, ninf => false
  | pinf, _ => false
  | _, pinf => true
  | fin a, fin b => a < b

/-- IEEE `≥` as a boolean. -/
def geb (a b : XV) : Bool := leb b a

/-- IEEE `==` as a boolean (false whenever NaN is involved). -/
def eqb : XV → XV → Bool
  | fin a, fin b => a = b
  | ninf, ninf => true
  | pinf, pinf => true
  | _, _ => false

/-- IEEE subtraction. -/
def sub : XV → XV → XV
  | nan, _ => nan
  | _, nan => nan
  | fin a, fin b => fin (a - b)
  | fin _, ninf => pinf
  | fin _, pinf => ninf
  | pinf, fin _ => pinf
  | ninf, fin _ => ninf
  | pinf, ninf => pinf
  | ninf, pinf => ninf
  | pinf, pinf => nan
  | ninf, ninf => nan

/-- IEEE division (signed zeros are collapsed: `x / ±∞ = 0`). -/
def div : XV → XV → XV
  | nan, _ => nan
  | _, nan => nan
  | fin a, fin b =>
      if b = 0 then (if a = 0 then nan else if 0 < a then pinf else ninf)
      else fin (a / b)
  | fin _, pinf => fin 0
  | fin _, ninf => fin 0
  | pinf, fin b => if 0 ≤ b then pinf else ninf
  | ninf, fin b => if 0 ≤ b then ninf else pinf
  | pinf, pinf => nan
  | pinf, ninf => nan
  | ninf, pinf => nan
  | ninf, ninf => nan

/-- IEEE absolute value. -/
def xabs : XV → XV
  | nan => nan
  | ninf => pinf
  | pinf => pinf
  | fin a => fin |a|

/-- Project a finite extended value back to `ℚ` (junk value `0` on the
specials; only applied where the code guarantees finiteness). -/
def toQ : XV → ℚ
  | fin a => a
  | _ => 0

end XV

/-- Python's `min` over a list: start from the head and replace the current
result only on a strict `<` comparison (hence NaN in the head position is
sticky, and later NaNs never replace the current result).  The empty list,
on which Python raises `ValueError`, is mapped to NaN and never reached by
the embedded callers under the claims' hypotheses. -/
def pythonMin (l : List XV) : XV :=
  match l with
  | [] => XV.nan
  | h :: t => t.foldl (fun acc x => if XV.ltb x acc then x else acc) h

/-! ## Dataset store (`Source`, from `src/source.py`) -/

/-- The dataset store: an immutable numeric sample matrix (rows = samples,
columns = dimensions).  `numDims` is the length of the Python
`dim_names` list (asserted equal to `data.shape[1]`). -/
structure Source where
  data : List (List ℚ)
  numDims : ℕ
deriving Repr

namespace Source

/-- `data[i, d]`. -/
def val (S : Source) (i d : ℕ) : ℚ := (S.data.getD i []).getD d 0

/-- Column `d` of the data matrix. -/
def colData (S : Source) (d : ℕ) : List ℚ := S.data.map (fun r => r.getD d 0)

/-- `np.argsort` of column `d`: sample indices sorted (stably) by value
along dimension `d`. -/
def argsortCol (S : Source) (d : ℕ) : List ℕ :=
  List.insertionSort (fun i j => S.val i d ≤ S.val j d) (List.range S.data.length)

/-- `self.all_sorted_indices`, stored as its list of columns (column `d` is
`all_sorted_indices[:, d]`). -/
def allSortedIndices (S : Source) : List (List ℕ) :=
  (List.range S.numDims).map (fun d => S.argsortCol d)

/-- Population variance (`np.var`, ddof = 0) of a list. -/
def popVarQ (l : List ℚ) : ℚ := varSumQ l / l.length

/-- `self.global_var_scale[d] = 1 / var(data[:, d])`, with zero variances
replaced by 1 beforehand to prevent a division-by-zero error. -/
def globalVarScale (S : Source) (d : ℕ) : ℚ :=
  let v := popVarQ (S.colData d)
  if v = 0 then 1 else 1 / v

end Source

/-! ## Region node (`Node`, from `src/node.py`) -/

/-- A region node: per-dimension sorted sample indices (`sorted_indices`,
stored as its list of columns), cached statistics, the two bounding boxes,
and the split fields populated if and when the node is split.  Children are
`Option` references, absent on leaves (and on the unexpanded side of a
one-sided split). -/
inductive Node where
  | mk
      (sortedIndices : List (List ℕ))
      (mean : List XV)
      (cov : List (List ℚ))
      (bb_min : List (XV × XV))
      (bb_max : List (XV × XV))
      (split_dim : Option ℕ)
      (split_threshold : Option ℚ)
      (left : Option Node)
      (right : Option Node)

namespace Node

def sortedIndices : Node → List (List ℕ)
  | .mk si _ _ _ _ _ _ _ _ => si

def mean : Node → List XV
  | .mk _ m _ _ _ _ _ _ _ => m

def cov : Node → List (List ℚ)
  | .mk _ _ c _ _ _ _ _ _ => c

def bbMin : Node → List (XV × XV)
  | .mk _ _ _ b _ _ _ _ _ => b

def bbMax : Node → List (XV × XV)
  | .mk _ _ _ _ b _ _ _ _ => b

def splitDim : Node → Option ℕ
  | .mk _ _ _ _ _ d _ _ _ => d

def splitThreshold : Node → Option ℚ
  | .mk _ _ _ _ _ _ t _ _ => t

def left : Node → Option Node
  | .mk _ _ _ _ _ _ _ l _ => l

def right : Node → Option Node
  | .mk _ _ _ _ _ _ _ _ r => r

/-- Column `d` of the node's `sorted_indices` matrix. -/
def col (nd : Node) (d : ℕ) : List ℕ := nd.sortedIndices.getD d []

/-- The node's sample set, read off column 0 (as `__contains__` does with
`self.sorted_indices[:, 0]`). -/
def samples (nd : Node) : List ℕ := nd.col 0

/-- `self.num_samples = sorted_indices.shape[0]`. -/
def numSamples (nd : Node) : ℕ := nd.samples.length

/-- Entry `(d, e)` of the covariance matrix. -/
def covAt (nd : Node) (d e : ℕ) : ℚ := (nd.cov.getD d []).getD e 0

/-- `self.cov_sum = cov * num_samples`, entry `(d, e)`. -/
def covSumAt (nd : Node) (d e : ℕ) : ℚ := nd.covAt d e * nd.numSamples

/-- `self.var_sum = diag(cov_sum)`, entry `d`. -/
def varSum (nd : Node) (d : ℕ) : ℚ := nd.covSumAt d d

/-- Entry `d` of `bb_max`. -/
def bbMaxAt (nd : Node) (d : ℕ) : XV × XV := nd.bbMax.getD d (XV.nan, XV.nan)

/-- Entry `d` of `bb_min`. -/
def bbMinAt (nd : Node) (d : ℕ) : XV × XV := nd.bbMin.getD d (XV.nan, XV.nan)

end Node

/-- Minimum of a list of rationals (`np.min`; junk 0 on the empty list,
`populate` only applies it to nonempty sample sets). -/
def minQ (l : List ℚ) : ℚ :=
  match l with
  | [] => 0
  | h :: t => t.foldl min h

/-- Maximum of a list of rationals (`np.max`). -/
def maxQ (l : List ℚ) : ℚ :=
  match l with
  | [] => 0
  | h :: t => t.foldl max h

/-- The statistics computed by `Node.populate`: mean, minimal bounding box
and covariance (ddof = 0).  A node with no samples gets NaN-filled mean and
minimal bounding box; the covariance matrix stays all-zero whenever there
are fewer than two samples. -/
def populateStats (S : Source) (cols : List (List ℕ)) :
    List XV × List (XV × XV) × List (List ℚ) :=
  let D := cols.length
  let rows := (cols.headD []).map (fun i => S.data.getD i [])
  let n := rows.length
  let colv := fun e => rows.map (fun r => r.getD e 0)
  if n > 0 then
    ((List.range D).map (fun e => XV.fin (meanQ (colv e))),
     (List.range D).map (fun e => (XV.fin (minQ (colv e)), XV.fin (maxQ (colv e)))),
     if n > 1 then
       (List.range D).map (fun d => (List.range D).map (fun e =>
         (List.zipWith (fun a b => (a - meanQ (colv d)) * (b - meanQ (colv e)))
           (colv d) (colv e)).sum / n))
     else (List.range D).map (fun _ => (List.range D).map (fun _ => (0 : ℚ))))
  else
    ((List.range D).map (fun _ => XV.nan),
     (List.range D).map (fun _ => (XV.nan, XV.nan)),
     (List.range D).map (fun _ => (List.range D).map (fun _ => (0 : ℚ))))

/-- The Python constructor `Node(source, sorted_indices, bb_min, bb_max)`:
`bb_max` defaults to `[-∞, ∞]` per source dimension, absent
`sorted_indices` mean an empty `(0, num_dims)` index matrix, statistics are
computed by `populate`, and a provided `bb_min` overwrites the computed
minimal bounding box. -/
def Node.ofIndices (S : Source) (colsOpt : Option (List (List ℕ)))
    (bbMinOpt bbMaxOpt : Option (List (XV × XV))) : Node :=
  let cols := colsOpt.getD (List.replicate S.numDims [])
  let bbMaxV := bbMaxOpt.getD (List.replicate S.numDims (XV.ninf, XV.pinf))
  let st := populateStats S cols
  Node.mk cols st.1 st.2.2 (bbMinOpt.getD st.2.1) bbMaxV none none none none

/-! ## Incremental split evaluation (`Node._eval_splits_one_dim`, var case)

`eval_data = source.data[sorted_indices[:, split_dim], eval_dims]` and all
subsequent numpy operations act componentwise over the evaluation
dimensions, so the pass is embedded one evaluation dimension at a time:
`projCol` is the column of `eval_data` for one evaluation dimension, and
the two recurrences below are the `mean[0/1], var_sum[0/1]` arrays of the
single linear pass. -/

/-- `eval_data[:, e]`: the node's samples in the order sorted along
dimension `s`, projected on dimension `e`. -/
def projCol (S : Source) (nd : Node) (s e : ℕ) : List ℚ :=
  (nd.col s).map (fun i => S.val i e)

/-- Left-side running `(mean, var_sum)` after `i` samples, exactly as the
loop maintains `mean[0, i], var_sum[0, i]` (index 0 holds the zero
initialisation of `np.zeros`). -/
def leftStats (xs : List ℚ) : ℕ → ℚ × ℚ
  | 0 => (0, 0)
  | i + 1 =>
      let p := leftStats xs i
      incMeanVarSum ((i : ℚ) + 1) p.1 p.2 (xs.getD i 0) 1

/-- Right-side running `(mean, var_sum)` after removing `i` samples, as the
loop maintains `mean[1, i], var_sum[1, i]`; index 0 is initialised with the
node's stored mean and `var_sum` and each step removes `eval_data[i]` with
new population `num_samples - i`. -/
def rightStats (m0 v0 : ℚ) (n : ℕ) (xs : List ℚ) : ℕ → ℚ × ℚ
  | 0 => (m0, v0)
  | i + 1 =>
      let p := rightStats m0 v0 n xs i
      incMeanVarSum ((n : ℚ) - ((i : ℚ) + 1)) p.1 p.2 (xs.getD i 0) (-1)

/-- The `(left, right)` aggregate pair at split index `i` produced by the
single-pass evaluation of `_eval_splits_one_dim` (var case), for one
evaluation dimension `e`. -/
def evalSplitsOneDim (S : Source) (nd : Node) (s e i : ℕ) : (ℚ × ℚ) × (ℚ × ℚ) :=
  (leftStats (projCol S nd s e) i,
   rightStats (nd.mean.getD e XV.nan).toQ (nd.varSum e) nd.numSamples
     (projCol S nd s e) i)

theorem leftStats_eq (xs : List ℚ) :
    ∀ i, i ≤ xs.length → leftStats xs i = (meanQ (xs.take i), varSumQ (xs.take i)) := by
  intro i
  induction i with
  | zero => intro _; simp [leftStats, meanQ_nil, varSumQ_nil]
  | succ i ih =>
      intro hi
      have hlt : i < xs.length := Nat.lt_of_succ_le hi
      have hle : i ≤ xs.length := Nat.le_of_lt hlt
      have htake : xs.take (i + 1) = xs.take i ++ [xs[i]] := by
        rw [List.take_succ, List.getElem?_eq_getElem hlt]
        rfl
      have hgetD : xs.getD i 0 = xs[i] := by
        simp [List.getD_eq_getElem?_getD, List.getElem?_eq_getElem hlt]
      have hlen : ((xs.take i).length : ℚ) = (i : ℚ) := by
        rw [List.length_take]
        norm_cast
        exact Nat.min_eq_left hle
      have := incMeanVarSum_add (xs.take i) xs[i]
      rw [hlen] at this
      simp only [leftStats, ih hle, hgetD, htake]
      exact this

theorem rightStats_eq (xs : List ℚ) (m0 v0 : ℚ)
    (hm : m0 = meanQ xs) (hv : v0 = varSumQ xs) :
    ∀ i, i < xs.length →
      rightStats m0 v0 xs.length xs i = (meanQ (xs.drop i), varSumQ (xs.drop i)) := by
  intro i
  induction i with
  | zero => intro _; simp [rightStats, hm, hv]
  | succ i ih =>
      intro hi
      have hlt : i < xs.length := Nat.lt_of_succ_lt hi
      have hdrop : xs.drop i = xs[i] :: xs.drop (i + 1) :=
        List.drop_eq_getElem_cons hlt
      have hgetD : xs.getD i 0 = xs[i] := by
        simp [List.getD_eq_getElem?_getD, List.getElem?_eq_getElem hlt]
      have hne : xs.drop (i + 1) ≠ [] := by
        intro hcon
        have : xs.length - (i + 1) = 0 := by
          simpa [List.length_drop] using congrArg List.length hcon
        omega
      have hlen : ((xs.drop (i + 1)).length : ℚ) = (xs.length : ℚ) - ((i : ℚ) + 1) := by
        rw [List.length_drop]
        have h1 : (i + 1) ≤ xs.length := Nat.le_of_lt hi
        push_cast [Nat.cast_sub h1]
        ring
      have hrm := incMeanVarSum_remove (xs.drop (i + 1)) xs[i] hne
      rw [hlen, ← hdrop] at hrm
      simp only [rightStats, ih hlt, hgetD]
      exact hrm

/-- C1: for every node, candidate split dimension and evaluation dimension,
the single incremental pass of `_eval_splits_one_dim` produces, at every
split point `i`, left and right `(mean, var_sum)` aggregates equal to the
direct non-incremental recomputation of mean and population variance sum
over the first `i` (respectively remaining `n - i`) samples in the order
sorted along the split dimension.  The hypotheses state that the node's
stored statistics are those of its samples (guaranteed by `populate`) and
that the split-dimension index column has the node's sample count. -/
theorem evalSplitsOneDim_matches_direct (S : Source) (nd : Node) (s e i : ℕ)
    (hm : (nd.mean.getD e XV.nan).toQ = meanQ (projCol S nd s e))
    (hv : nd.varSum e = varSumQ (projCol S nd s e))
    (hn : nd.numSamples = (projCol S nd s e).length)
    (hi : i < (projCol S nd s e).length) :
    evalSplitsOneDim S nd s e i
      = ((meanQ ((projCol S nd s e).take i), varSumQ ((projCol S nd s e).take i)),
         (meanQ ((projCol S nd s e).drop i), varSumQ ((projCol S nd s e).drop i))) := by
  unfold evalSplitsOneDim
  rw [leftStats_eq _ i (Nat.le_of_lt hi), hn,
    rightStats_eq (projCol S nd s e) _ _ hm hv i hi]

/-- A concrete three-sample, one-dimensional dataset used as witness
input. -/
def W1src : Source := ⟨[[0], [1], [2]], 1⟩

/-- The root node over `W1src`. -/
def W1nd : Node := Node.ofIndices W1src (some W1src.allSortedIndices) none none

theorem evalSplitsOneDim_matches_direct_witness :
    evalSplitsOneDim W1src W1nd 0 0 1
      = ((meanQ ((projCol W1src W1nd 0 0).take 1), varSumQ ((projCol W1src W1nd 0 0).take 1)),
         (meanQ ((projCol W1src W1nd 0 0).drop 1), varSumQ ((projCol W1src W1nd 0 0).drop 1))) :=
  evalSplitsOneDim_matches_direct W1src W1nd 0 0 1
    (by norm_num [W1nd, W1src, Node.ofIndices, populateStats, Source.allSortedIndices,
      Source.argsortCol, Source.val, List.insertionSort, List.orderedInsert,
      List.range_succ, Node.mean, XV.toQ, projCol, Node.col, Node.sortedIndices, meanQ])
    (by norm_num [W1nd, W1src, Node.ofIndices, populateStats, Source.allSortedIndices,
      Source.argsortCol, Source.val, List.insertionSort, List.orderedInsert,
      List.range_succ, Node.varSum, Node.covSumAt, Node.covAt, Node.cov, Node.numSamples,
      Node.samples, Node.col, Node.sortedIndices, projCol, varSumQ, meanQ])
    (by norm_num [W1nd, W1src, Node.ofIndices, populateStats, Source.allSortedIndices,
      Source.argsortCol, Source.val, List.insertionSort, List.orderedInsert,
      List.range_succ, Node.numSamples, Node.samples, Node.col, Node.sortedIndices, projCol])
    (by norm_num [W1nd, W1src, Node.ofIndices, populateStats, Source.allSortedIndices,
      Source.argsortCol, Source.val, List.insertionSort, List.orderedInsert,
      List.range_succ, projCol, Node.col, Node.sortedIndices])

/-! ## Split search (`Node._find_greedy_splits` / `Node._do_greedy_split`)

Only the plain-reduction path (`corr = False`) is embedded: the
correlation path converts covariances to R² and performs an
eigendecomposition, which none of the claims about this path require (the
`one_sided` flag in combination with `corr = False` raises
`NotImplementedError`, which is embedded). -/

/-- Modelled from the spec: `split_sorted_indices` from the repository's
`utils.py` (not among the given sources).  It partitions each
per-dimension sample-reference array into left/right subsequences by index
membership — the left sample set consists of the first `i` entries of the
split dimension's column — without re-sorting. -/
def splitSortedIndices (cols : List (List ℕ)) (splitDim i : ℕ) :
    List (List ℕ) × List (List ℕ) :=
  let leftSet := (cols.getD splitDim []).take i
  (cols.map (fun c => c.filter (fun j => j ∈ leftSet)),
   cols.map (fun c => c.filter (fun j => ¬ j ∈ leftSet)))

/-- `gain_per_dim[i, e] = cov_or_var_sum[1, 0] - cov_or_var_sum.sum(axis=0)`:
the parent's variance sum (the right aggregate at index 0) minus the sum of
the left and right aggregates at split index `i`, for evaluation
dimension `e`. -/
def gainAt (S : Source) (nd : Node) (s e i : ℕ) : ℚ :=
  (evalSplitsOneDim S nd s e 0).2.2
    - ((evalSplitsOneDim S nd s e i).1.2 + (evalSplitsOneDim S nd s e i).2.2)

/-- `qual[i] = (gain_per_dim * global_var_scale[eval_dims]).sum(axis=1)`. -/
def qualAt (S : Source) (nd : Node) (evalDims : List ℕ) (s i : ℕ) : ℚ :=
  (evalDims.map (fun e => gainAt S nd s e i * S.globalVarScale e)).sum

/-- `np.argmax` of `f` over `0, …, n-1`: the first index attaining the
maximum (junk 0 for `n = 0`, where numpy raises). -/
def argmaxQ (f : ℕ → ℚ) (n : ℕ) : ℕ :=
  (List.range n).foldl (fun best i => if f i > f best then i else best) 0

/-- One entry of the `splits` list assembled by `_find_greedy_splits`:
`(split_dim, split_point, qual_max, split_sorted_indices(...))` (the
correlation-only index component is omitted along with the correlation
path). -/
structure SplitCand where
  dim : ℕ
  point : ℕ
  qual : ℚ
  lr : List (List ℕ) × List (List ℕ)
deriving DecidableEq, Repr

/-- The candidate recorded for a (non-skipped) split dimension `s`. -/
def candFor (S : Source) (nd : Node) (evalDims : List ℕ) (s : ℕ) : SplitCand :=
  let sp := argmaxQ (qualAt S nd evalDims s) nd.numSamples
  ⟨s, sp, qualAt S nd evalDims s sp, splitSortedIndices nd.sortedIndices s sp⟩

/-- The Python `NotImplementedError` raised for `one_sided` splitting
without correlation mode. -/
inductive GreedyErr where
  | notImplemented
deriving DecidableEq, Repr

/-- `_find_greedy_splits(split_dims, eval_dims, corr=False, one_sided)`:
iterate over the candidate split dimensions, skip dimensions with zero
variance sum, raise `NotImplementedError` when `one_sided` is requested
(plain mode), and otherwise record the best split of each dimension. -/
def findGreedySplits (S : Source) (nd : Node) (evalDims : List ℕ)
    (oneSided : Bool) : List ℕ → Except GreedyErr (List SplitCand)
  | [] => .ok []
  | s :: rest =>
      if nd.varSum s = 0 then findGreedySplits S nd evalDims oneSided rest
      else if oneSided then .error .notImplemented
      else
        match findGreedySplits S nd evalDims oneSided rest with
        | .error e => .error e
        | .ok l => .ok (candFor S nd evalDims s :: l)

/-- `sorted(splits, key=lambda x: x[2], reverse=True)[0]`: Python's sort is
stable, so this is the first candidate (in iteration order) of maximal
quality; replacing the current best only on a strictly greater quality
reproduces that choice. -/
def pickBest (c : SplitCand) : List SplitCand → SplitCand
  | [] => c
  | d :: t => if d.qual > c.qual then pickBest d t else pickBest c t

/-- The split threshold of `_do_greedy_split`: the midpoint of the last
left-side and first right-side sample values along the chosen dimension,
`(data[left[-1, s], s] + data[right[0, s], s]) / 2`. -/
def splitThresholdOf (S : Source) (b : SplitCand) : ℚ :=
  (S.val ((b.lr.1.getD b.dim []).getLastD 0) b.dim
    + S.val ((b.lr.2.getD b.dim []).headD 0) b.dim) / 2

/-- Applying the chosen split `b` to the node: record `split_dim` and the
midpoint `split_threshold`, and construct both children from the
partitioned index arrays, each inheriting `bb_max` with the one bound of
the split dimension narrowed to the threshold.  Returns the updated parent
together with the left and right children. -/
def splitNodeOf (S : Source) (nd : Node) (b : SplitCand) : Node × Node × Node :=
  let s := b.dim
  let θ := splitThresholdOf S b
  let bbL := nd.bbMax.set s ((nd.bbMaxAt s).1, XV.fin θ)
  let bbR := nd.bbMax.set s (XV.fin θ, (nd.bbMaxAt s).2)
  let L := Node.ofIndices S (some b.lr.1) none (some bbL)
  let R := Node.ofIndices S (some b.lr.2) none (some bbR)
  (Node.mk nd.sortedIndices nd.mean nd.cov nd.bbMin nd.bbMax
    (some s) (some θ) (some L) (some R), L, R)

/-- Choose the single best candidate (stable max-quality reduction) and
apply it if its quality is strictly positive; `none` otherwise (`return
False`, no children created). -/
def applyBestSplit (S : Source) (nd : Node) : List SplitCand → Option (Node × Node × Node)
  | [] => none
  | c :: cs =>
      let b := pickBest c cs
      if 0 < b.qual then some (splitNodeOf S nd b) else none

/-- `_do_greedy_split` (plain mode): find the candidates, then choose and
apply the best split. -/
def doGreedySplit (S : Source) (nd : Node) (splitDims evalDims : List ℕ)
    (oneSided : Bool) : Except GreedyErr (Option (Node × Node × Node)) :=
  match findGreedySplits S nd evalDims oneSided splitDims with
  | .error e => .error e
  | .ok l => .ok (applyBestSplit S nd l)

/-! ### Helper lemmas about `argmaxQ changes` and `pickBest` -/

theorem argmaxQ_lt (f : ℕ → ℚ) (n : ℕ) (h : 0 < n) : argmaxQ f n < n := by
  unfold argmaxQ
  have key : ∀ (l : List ℕ) (b : ℕ), b < n → (∀ i ∈ l, i < n) →
      l.foldl (fun best i => if f i > f best then i else best) b < n := by
    intro l
    induction l with
    | nil => intro b hb _; simpa using hb
    | cons x t ih =>
        intro b hb hmem
        simp only [List.foldl_cons]
        by_cases hx : f x > f b
        · simp only [hx, if_pos]
          exact ih x (hmem x (by simp)) (fun i hi => hmem i (by simp [hi]))
        · simp only [hx, if_neg, not_false_iff]
          exact ih b hb (fun i hi => hmem i (by simp [hi]))
  exact key (List.range n) 0 h (fun i hi => List.mem_range.mp hi)

theorem argmaxQ_ge (f : ℕ → ℚ) (n : ℕ) :
    ∀ i < n, f i ≤ f (argmaxQ f n) := by
  unfold argmaxQ
  have key : ∀ (l : List ℕ) (b : ℕ),
      (∀ i ∈ l, f i ≤ f (l.foldl (fun best i => if f i > f best then i else best) b))
      ∧ f b ≤ f (l.foldl (fun best i => if f i > f best then i else best) b) := by
    intro l
    induction l with
    | nil => intro b; exact ⟨by simp, le_refl _⟩
    | cons x t ih =>
        intro b
        simp only [List.foldl_cons]
        by_cases hx : f x > f b
        · simp only [hx, if_pos]
          refine ⟨?_, ?_⟩
          · intro i hi
            rcases List.mem_cons.mp hi with rfl | hi
            · exact (ih i).2
            · exact (ih x).1 i hi
          · exact le_trans (le_of_lt hx) (ih x).2
        · simp only [hx, if_neg, not_false_iff]
          refine ⟨?_, (ih b).2⟩
          intro i hi
          rcases List.mem_cons.mp hi with rfl | hi
          · exact le_trans (le_of_not_lt hx) (ih b).2
          · exact (ih b).1 i hi
  intro i hi
  exact (key (List.range n) 0).1 i (List.mem_range.mpr hi)

theorem pickBest_mem (c : SplitCand) (l : List SplitCand) :
    pickBest c l ∈ c :: l := by
  induction l generalizing c with
  | nil => simp [pickBest]
  | cons d t ih =>
      simp only [pickBest]
      by_cases hd : d.qual > c.qual
      · simp only [hd, if_pos]
        exact List.mem_cons.mpr (Or.inr (ih d))
      · simp only [hd, if_neg, not_false_iff]
        rcases List.mem_cons.mp (ih c) with h | h
        · rw [h]; exact List.mem_cons_self c (d :: t)
        · exact List.mem_cons.mpr (Or.inr (List.mem_cons.mpr (Or.inr h)))

theorem pickBest_ge (c : SplitCand) (l : List SplitCand) :
    ∀ d ∈ c :: l, d.qual ≤ (pickBest c l).qual := by
  induction l generalizing c with
  | nil => intro d hd; rcases List.mem_cons.mp hd with rfl | h
           · simp [pickBest]
           · simp at h
  | cons x t ih =>
      intro d hd
      simp only [pickBest]
      by_cases hx : x.qual > c.qual
      · simp only [hx, if_pos]
        rcases List.mem_cons.mp hd with rfl | h
        · exact le_trans (le_of_lt hx) (ih x x (List.mem_cons_self x t))
        · rcases List.mem_cons.mp h with rfl | h2
          · exact ih d d (List.mem_cons_self d t)
          · exact ih x d (List.mem_cons.mpr (Or.inr h2))
      · simp only [hx, if_neg, not_false_iff]
        rcases List.mem_cons.mp hd with rfl | h
        · exact ih d d (List.mem_cons_self d t)
        · rcases List.mem_cons.mp h with rfl | h2
          · exact le_trans (le_of_not_lt hx) (ih c c (List.mem_cons_self c t))
          · exact ih c d (List.mem_cons.mpr (Or.inr h2))

/-- In plain mode `_find_greedy_splits` records one candidate per
non-skipped dimension, in iteration order: dimensions whose variance sum in
the region is zero are skipped entirely. -/
theorem findGreedySplits_plain_eq (S : Source) (nd : Node) (evalDims : List ℕ) :
    ∀ sd : List ℕ, findGreedySplits S nd evalDims false sd
      = .ok ((sd.filter (fun s => ¬ nd.varSum s = 0)).map (candFor S nd evalDims)) := by
  intro sd
  induction sd with
  | nil => simp [findGreedySplits]
  | cons s rest ih =>
      by_cases hs : nd.varSum s = 0
      · simp [findGreedySplits, hs, ih]
      · simp [findGreedySplits, hs, ih]

/-- A node with a nonzero variance sum along some dimension has at least
one sample (`var_sum = diag(cov) * num_samples`). -/
theorem varSum_ne_zero_pos (nd : Node) (s : ℕ) (h : nd.varSum s ≠ 0) :
    0 < nd.numSamples := by
  by_contra hcon
  have h0 : nd.numSamples = 0 := Nat.eq_zero_of_not_pos hcon
  apply h
  simp [Node.varSum, Node.covSumAt, h0]

/-- C10: with `one_sided = True` but `corr = False` (plain reduction mode),
any node having at least one candidate split dimension of nonzero variance
makes `_find_greedy_splits` raise `NotImplementedError`, and
`_do_greedy_split` therefore propagates the error and performs no split. -/
theorem oneSided_plain_not_implemented (S : Source) (nd : Node)
    (splitDims evalDims : List ℕ) (h : ∃ d ∈ splitDims, nd.varSum d ≠ 0) :
    findGreedySplits S nd evalDims true splitDims = .error .notImplemented ∧
    doGreedySplit S nd splitDims evalDims true = .error .notImplemented := by
  have hfind : findGreedySplits S nd evalDims true splitDims = .error .notImplemented := by
    induction splitDims with
    | nil => simp at h
    | cons s rest ih =>
        by_cases hs : nd.varSum s = 0
        · have hrest : ∃ d ∈ rest, nd.varSum d ≠ 0 := by
            obtain ⟨d, hd, hne⟩ := h
            rcases List.mem_cons.mp hd with rfl | hd2
            · exact absurd hs hne
            · exact ⟨d, hd2, hne⟩
          simp [findGreedySplits, hs, ih hrest]
        · simp [findGreedySplits, hs]
  refine ⟨hfind, ?_⟩
  unfold doGreedySplit
  rw [hfind]

theorem oneSided_plain_not_implemented_witness :
    (∃ d ∈ [0], W1nd.varSum d ≠ 0) ∧
    (findGreedySplits W1src W1nd [0] true [0] = .error .notImplemented ∧
     doGreedySplit W1src W1nd [0] [0] true = .error .notImplemented) := by
  have h : ∃ d ∈ [0], W1nd.varSum d ≠ 0 := by
    refine ⟨0, by simp, ?_⟩
    norm_num [W1nd, W1src, Node.ofIndices, populateStats, Source.allSortedIndices,
      Source.argsortCol, Source.val, List.insertionSort, List.orderedInsert,
      List.range_succ, Node.varSum, Node.covSumAt, Node.covAt, Node.cov,
      Node.numSamples, Node.samples, Node.col, Node.sortedIndices, meanQ]
  exact ⟨h, oneSided_plain_not_implemented W1src W1nd [0] [0] h⟩

/-- The quality of a split, expressed through the direct recomputation of
the left/right variance sums (helper shared by the claims below). -/
theorem qualAt_direct (S : Source) (nd : Node) (evalDims : List ℕ) (s i : ℕ)
    (hstat : ∀ e ∈ evalDims,
      (nd.mean.getD e XV.nan).toQ = meanQ (projCol S nd s e) ∧
      nd.varSum e = varSumQ (projCol S nd s e))
    (hlen : (nd.col s).length = nd.numSamples)
    (hi : i < nd.numSamples) :
    qualAt S nd evalDims s i
      = (evalDims.map (fun e =>
          (varSumQ (projCol S nd s e) - varSumQ ((projCol S nd s e).take i)
            - varSumQ ((projCol S nd s e).drop i)) * S.globalVarScale e)).sum := by
  unfold qualAt
  congr 1
  apply List.map_congr_left
  intro e he
  obtain ⟨hm, hv⟩ := hstat e he
  have hxs : (projCol S nd s e).length = nd.numSamples := by
    simp [projCol, hlen]
  have hiL : i ≤ (projCol S nd s e).length := by omega
  have hiR : i < (projCol S nd s e).length := by omega
  have hL := leftStats_eq (projCol S nd s e) i hiL
  have hR := rightStats_eq (projCol S nd s e) (nd.mean.getD e XV.nan).toQ (nd.varSum e)
    hm hv i hiR
  unfold gainAt evalSplitsOneDim
  rw [← hxs, hL, hR]
  simp only [rightStats]
  rw [hv]
  ring

/-- C2: in plain reduction mode, the quality of a split at point `i` is the
sum over evaluation dimensions of
`(parent var_sum − left var_sum − right var_sum) * global_var_scale[e]`
(stated through direct recomputation of the left/right variance sums);
candidate dimensions with zero variance sum are skipped entirely; the
chosen split maximises quality over all split points of all candidate
dimensions; and `_do_greedy_split` creates children if and only if the
maximum quality is strictly positive. -/
theorem plain_quality_and_selection (S : Source) (nd : Node)
    (splitDims evalDims : List ℕ)
    (hstat : ∀ s ∈ splitDims, ∀ e ∈ evalDims,
      (nd.mean.getD e XV.nan).toQ = meanQ (projCol S nd s e) ∧
      nd.varSum e = varSumQ (projCol S nd s e))
    (hlen : ∀ s ∈ splitDims, (nd.col s).length = nd.numSamples) :
    (∀ s ∈ splitDims, ∀ i < nd.numSamples,
      qualAt S nd evalDims s i
        = (evalDims.map (fun e =>
            (varSumQ (projCol S nd s e) - varSumQ ((projCol S nd s e).take i)
              - varSumQ ((projCol S nd s e).drop i)) * S.globalVarScale e)).sum)
    ∧ findGreedySplits S nd evalDims false splitDims
        = .ok ((splitDims.filter (fun s => ¬ nd.varSum s = 0)).map (candFor S nd evalDims))
    ∧ (∀ nd' L R, doGreedySplit S nd splitDims evalDims false = .ok (some (nd', L, R)) →
        ∃ s i, nd'.splitDim = some s ∧ s ∈ splitDims ∧ nd.varSum s ≠ 0
          ∧ i < nd.numSamples ∧ 0 < qualAt S nd evalDims s i
          ∧ ∀ s' ∈ splitDims, nd.varSum s' ≠ 0 →
              ∀ i' < nd.numSamples, qualAt S nd evalDims s' i' ≤ qualAt S nd evalDims s i)
    ∧ ((∃ s ∈ splitDims, nd.varSum s ≠ 0 ∧ ∃ i < nd.numSamples,
          0 < qualAt S nd evalDims s i) →
        ∃ nd' L R, doGreedySplit S nd splitDims evalDims false = .ok (some (nd', L, R))) := by
  refine ⟨?_, findGreedySplits_plain_eq S nd evalDims splitDims, ?_, ?_⟩
  · intro s hs i hi
    exact qualAt_direct S nd evalDims s i (hstat s hs) (hlen s hs) hi
  · intro nd' L R hds
    unfold doGreedySplit at hds
    rw [findGreedySplits_plain_eq] at hds
    rcases hmatch : (splitDims.filter (fun s => ¬ nd.varSum s = 0)).map (candFor S nd evalDims)
      with _ | ⟨c, cs⟩
    · rw [hmatch] at hds
      simp [applyBestSplit] at hds
    · rw [hmatch] at hds
      simp only [applyBestSplit] at hds
      by_cases hq : 0 < (pickBest c cs).qual
      · rw [if_pos hq] at hds
        have hds2 : splitNodeOf S nd (pickBest c cs) = (nd', L, R) := by
          injection hds with hds1
          injection hds1
        set b := pickBest c cs with hb
        have hbmem : b ∈ c :: cs := pickBest_mem c cs
        rw [← hmatch] at hbmem
        obtain ⟨s, hsfil, hbeq⟩ := List.mem_map.mp hbmem
        have hsdim : s ∈ splitDims ∧ nd.varSum s ≠ 0 := by
          have := List.mem_filter.mp hsfil
          simpa using this
        have hnpos : 0 < nd.numSamples := varSum_ne_zero_pos nd s hsdim.2
        have hnd' : nd' = (splitNodeOf S nd b).1 := by rw [hds2]
        refine ⟨s, b.point, ?_, hsdim.1, hsdim.2, ?_, ?_, ?_⟩
        · have hbd : nd'.splitDim = some b.dim := by
            rw [hnd']; simp [splitNodeOf, Node.splitDim]
          rw [hbd, ← hbeq]
          simp [candFor]
        · rw [← hbeq]
          simp only [candFor]
          exact argmaxQ_lt _ _ hnpos
        · have hq2 : b.qual = qualAt S nd evalDims s b.point := by
            rw [← hbeq]; simp [candFor]
          rw [← hq2]
          exact hq
        · intro s' hs' hvs' i' hi'
          have hq2 : b.qual = qualAt S nd evalDims s b.point := by
            rw [← hbeq]; simp [candFor]
          have hcmem : candFor S nd evalDims s' ∈ c :: cs := by
            rw [← hmatch]
            exact List.mem_map.mpr ⟨s', List.mem_filter.mpr (by simpa using ⟨hs', hvs'⟩), rfl⟩
          have h1 : qualAt S nd evalDims s' i'
              ≤ qualAt S nd evalDims s' (argmaxQ (qualAt S nd evalDims s') nd.numSamples) :=
            argmaxQ_ge _ _ i' hi'
          have h2 : (candFor S nd evalDims s').qual ≤ b.qual := pickBest_ge c cs _ hcmem
          rw [hq2] at h2
          simpa [candFor] using le_trans h1 h2
      · rw [if_neg hq] at hds
        simp at hds
  · rintro ⟨s, hs, hvs, i, hi, hq⟩
    unfold doGreedySplit
    rw [findGreedySplits_plain_eq]
    have hcmem : candFor S nd evalDims s
        ∈ (splitDims.filter (fun s => ¬ nd.varSum s = 0)).map (candFor S nd evalDims) :=
      List.mem_map.mpr ⟨s, List.mem_filter.mpr (by simpa using ⟨hs, hvs⟩), rfl⟩
    rcases hmatch : (splitDims.filter (fun s => ¬ nd.varSum s = 0)).map (candFor S nd evalDims)
      with _ | ⟨c, cs⟩
    · rw [hmatch] at hcmem; simp at hcmem
    · rw [hmatch] at hcmem
      have hqb : 0 < (pickBest c cs).qual := by
        have h1 : qualAt S nd evalDims s i
            ≤ qualAt S nd evalDims s (argmaxQ (qualAt S nd evalDims s) nd.numSamples) :=
          argmaxQ_ge _ _ i hi
        have h2 : (candFor S nd evalDims s).qual ≤ (pickBest c cs).qual :=
          pickBest_ge c cs _ hcmem
        simp only [candFor] at h2
        calc (0 : ℚ) < qualAt S nd evalDims s i := hq
          _ ≤ _ := h1
          _ ≤ _ := h2
      refine ⟨(splitNodeOf S nd (pickBest c cs)).1, (splitNodeOf S nd (pickBest c cs)).2.1,
        (splitNodeOf S nd (pickBest c cs)).2.2, ?_⟩
      simp [applyBestSplit, hqb]

theorem plain_quality_and_selection_witness :
    (∀ s ∈ ([0] : List ℕ), ∀ e ∈ ([0] : List ℕ),
      (W1nd.mean.getD e XV.nan).toQ = meanQ (projCol W1src W1nd s e) ∧
      W1nd.varSum e = varSumQ (projCol W1src W1nd s e)) ∧
    (∀ s ∈ ([0] : List ℕ), (W1nd.col s).length = W1nd.numSamples) ∧
    ((∀ s ∈ ([0] : List ℕ), ∀ i < W1nd.numSamples,
      qualAt W1src W1nd [0] s i
        = (([0] : List ℕ).map (fun e =>
            (varSumQ (projCol W1src W1nd s e) - varSumQ ((projCol W1src W1nd s e).take i)
              - varSumQ ((projCol W1src W1nd s e).drop i)) * W1src.globalVarScale e)).sum)
    ∧ findGreedySplits W1src W1nd [0] false [0]
        = .ok ((([0] : List ℕ).filter (fun s => ¬ W1nd.varSum s = 0)).map (candFor W1src W1nd [0]))
    ∧ (∀ nd' L R, doGreedySplit W1src W1nd [0] [0] false = .ok (some (nd', L, R)) →
        ∃ s i, nd'.splitDim = some s ∧ s ∈ ([0] : List ℕ) ∧ W1nd.varSum s ≠ 0
          ∧ i < W1nd.numSamples ∧ 0 < qualAt W1src W1nd [0] s i
          ∧ ∀ s' ∈ ([0] : List ℕ), W1nd.varSum s' ≠ 0 →
              ∀ i' < W1nd.numSamples, qualAt W1src W1nd [0] s' i' ≤ qualAt W1src W1nd [0] s i)
    ∧ ((∃ s ∈ ([0] : List ℕ), W1nd.varSum s ≠ 0 ∧ ∃ i < W1nd.numSamples,
          0 < qualAt W1src W1nd [0] s i) →
        ∃ nd' L R, doGreedySplit W1src W1nd [0] [0] false = .ok (some (nd', L, R)))) := by
  have h1 : ∀ s ∈ ([0] : List ℕ), ∀ e ∈ ([0] : List ℕ),
      (W1nd.mean.getD e XV.nan).toQ = meanQ (projCol W1src W1nd s e) ∧
      W1nd.varSum e = varSumQ (projCol W1src W1nd s e) := by
    intro s hs e he
    rw [List.mem_singleton] at hs he
    subst hs; subst he
    constructor
    · norm_num [W1nd, W1src, Node.ofIndices, populateStats, Source.allSortedIndices,
        Source.argsortCol, Source.val, List.insertionSort, List.orderedInsert,
        List.range_succ, Node.mean, XV.toQ, projCol, Node.col, Node.sortedIndices, meanQ]
    · norm_num [W1nd, W1src, Node.ofIndices, populateStats, Source.allSortedIndices,
        Source.argsortCol, Source.val, List.insertionSort, List.orderedInsert,
        List.range_succ, Node.varSum, Node.covSumAt, Node.covAt, Node.cov, Node.numSamples,
        Node.samples, Node.col, Node.sortedIndices, projCol, varSumQ, meanQ]
  have h2 : ∀ s ∈ ([0] : List ℕ), (W1nd.col s).length = W1nd.numSamples := by
    intro s hs
    rw [List.mem_singleton] at hs
    subst hs
    norm_num [W1nd, W1src, Node.ofIndices, populateStats, Source.allSortedIndices,
      Source.argsortCol, Source.val, List.insertionSort, List.orderedInsert,
      List.range_succ, Node.numSamples, Node.samples, Node.col, Node.sortedIndices]
  exact ⟨h1, h2, plain_quality_and_selection W1src W1nd [0] [0] h1 h2⟩

/-! ### List helper lemmas for the partition of the sorted-index arrays -/

theorem getD_map_lt {α β : Type} (f : α → β) (l : List α) (n : ℕ) (d : β) (d' : α)
    (h : n < l.length) : (l.map f).getD n d = f (l.getD n d') := by
  have h2 : n < (l.map f).length := by simpa using h
  simp [List.getD_eq_getElem?_getD, List.getElem?_eq_getElem, h, h2]

theorem length_filter_partition {α : Type} (p : α → Bool) (l : List α) :
    (l.filter p).length + (l.filter (fun j => !(p j))).length = l.length := by
  induction l with
  | nil => simp
  | cons x t ih =>
      by_cases hx : p x
      · simp [List.filter_cons, hx]
        omega
      · simp [List.filter_cons, hx]
        omega

theorem filter_take_drop (t d : List ℕ) (h : (t ++ d).Nodup) :
    (t ++ d).filter (fun j => decide (j ∈ t)) = t
    ∧ (t ++ d).filter (fun j => decide (¬ j ∈ t)) = d := by
  have hdisj := List.disjoint_of_nodup_append h
  rw [List.filter_append, List.filter_append]
  constructor
  · rw [List.filter_eq_self.mpr, List.filter_eq_nil_iff.mpr]
    · simp
    · intro a ha
      simp only [decide_eq_true_eq]
      exact fun hat => hdisj hat ha
    · intro a ha
      simp [ha]
  · rw [List.filter_eq_nil_iff.mpr, List.filter_eq_self.mpr]
    · simp
    · intro a ha
      simp only [decide_eq_true_eq]
      exact fun hat => hdisj hat ha
    · intro a ha
      simp only [decide_eq_true_eq, Decidable.not_not]
      exact ha

theorem headD_drop (l : List ℕ) (n : ℕ) (h : n < l.length) :
    (l.drop n).headD 0 = l.getD n 0 := by
  rcases hd : l.drop n with _ | ⟨x, t⟩
  · exfalso
    have := congrArg List.length hd
    simp [List.length_drop] at this
    omega
  · have h1 : l[n] = x := by
      have h2 := List.drop_eq_getElem_cons h
      rw [hd] at h2
      injection h2 with h3 _
      exact h3.symm
    simp [hd, List.getD_eq_getElem?_getD, List.getElem?_eq_getElem h, h1]

theorem getLastD_take (l : List ℕ) (i : ℕ) (h1 : 0 < i) (h2 : i ≤ l.length) :
    (l.take i).getLastD 0 = l.getD (i - 1) 0 := by
  have hlen : (l.take i).length = i := by simp [List.length_take]; omega
  have hi1 : i - 1 < (l.take i).length := by omega
  have hi2 : i - 1 < l.length := by omega
  have hg : (l.take i)[i - 1] = l[i - 1] := List.getElem_take _
  rw [List.getLastD_eq_getLast?, List.getLast?_eq_getElem?]
  simp only [hlen, List.getElem?_eq_getElem hi1, hg, Option.getD_some,
    List.getD_eq_getElem?_getD, List.getElem?_eq_getElem hi2]

/-- The quality of the degenerate split at index 0 (empty left side) is
zero: the right aggregate at 0 is the parent's own variance sum. -/
theorem qualAt_zero (S : Source) (nd : Node) (evalDims : List ℕ) (s : ℕ) :
    qualAt S nd evalDims s 0 = 0 := by
  unfold qualAt gainAt evalSplitsOneDim leftStats rightStats
  simp

/-- A placeholder node (never the result of a successful split). -/
def dummyNode : Node := Node.mk [] [] [] [] [] none none none none

/-- Extract the `(updated parent, left child, right child)` triple of a
successful greedy split (placeholder nodes otherwise). -/
def splitResultOf (r : Except GreedyErr (Option (Node × Node × Node))) :
    Node × Node × Node :=
  match r with
  | .ok (some t) => t
  | _ => (dummyNode, dummyNode, dummyNode)

theorem splitNodeOf_parent_splitDim (S : Source) (nd : Node) (b : SplitCand) :
    (splitNodeOf S nd b).1.splitDim = some b.dim := rfl

theorem splitNodeOf_parent_splitThreshold (S : Source) (nd : Node) (b : SplitCand) :
    (splitNodeOf S nd b).1.splitThreshold = some (splitThresholdOf S b) := rfl

theorem splitNodeOf_left_bbMax (S : Source) (nd : Node) (b : SplitCand) :
    (splitNodeOf S nd b).2.1.bbMax
      = nd.bbMax.set b.dim ((nd.bbMaxAt b.dim).1, XV.fin (splitThresholdOf S b)) := rfl

theorem splitNodeOf_right_bbMax (S : Source) (nd : Node) (b : SplitCand) :
    (splitNodeOf S nd b).2.2.bbMax
      = nd.bbMax.set b.dim (XV.fin (splitThresholdOf S b), (nd.bbMaxAt b.dim).2) := rfl

theorem splitNodeOf_left_cols (S : Source) (nd : Node) (b : SplitCand) :
    (splitNodeOf S nd b).2.1.sortedIndices = b.lr.1 := rfl

theorem splitNodeOf_right_cols (S : Source) (nd : Node) (b : SplitCand) :
    (splitNodeOf S nd b).2.2.sortedIndices = b.lr.2 := rfl

/-- The two halves produced by `split_sorted_indices` partition the
parent's sample set: two nodes built over them hold disjoint sample lists
that jointly exhaust the parent's samples, and their lengths add up. -/
theorem splitSortedIndices_samples_partition (nd : Node) (sdim i : ℕ) (L R : Node)
    (hL : L.sortedIndices = (splitSortedIndices nd.sortedIndices sdim i).1)
    (hR : R.sortedIndices = (splitSortedIndices nd.sortedIndices sdim i).2) :
    List.Disjoint L.samples R.samples
    ∧ (∀ x, x ∈ nd.samples ↔ x ∈ L.samples ∨ x ∈ R.samples)
    ∧ L.numSamples + R.numSamples = nd.numSamples := by
  rcases hcols : nd.sortedIndices with _ | ⟨c0, cs⟩
  · have hLs : L.samples = [] := by
      simp [Node.samples, Node.col, hL, splitSortedIndices, hcols]
    have hRs : R.samples = [] := by
      simp [Node.samples, Node.col, hR, splitSortedIndices, hcols]
    have hns : nd.samples = [] := by
      simp [Node.samples, Node.col, hcols]
    refine ⟨?_, ?_, ?_⟩
    · rw [hLs]
      intro a ha
      simp at ha
    · intro x
      rw [hLs, hRs, hns]
      simp
    · simp [Node.numSamples, hLs, hRs, hns]
  · have hcols0 : 0 < nd.sortedIndices.length := by rw [hcols]; simp
    have hLsamp : L.samples
        = (nd.col 0).filter (fun j => decide (j ∈ (nd.col sdim).take i)) := by
      simp only [Node.samples, Node.col]
      rw [hL]
      simp only [splitSortedIndices, Node.col]
      exact getD_map_lt _ _ 0 _ [] hcols0
    have hRsamp : R.samples
        = (nd.col 0).filter (fun j => decide (¬ j ∈ (nd.col sdim).take i)) := by
      simp only [Node.samples, Node.col]
      rw [hR]
      simp only [splitSortedIndices, Node.col]
      exact getD_map_lt _ _ 0 _ [] hcols0
    refine ⟨?_, ?_, ?_⟩
    · intro a haL haR
      rw [hLsamp] at haL
      rw [hRsamp] at haR
      have h1 := (List.mem_filter.mp haL).2
      have h2 := (List.mem_filter.mp haR).2
      simp only [decide_eq_true_eq] at h1 h2
      exact h2 h1
    · intro x
      constructor
      · intro hx
        by_cases hmem : x ∈ (nd.col sdim).take i
        · exact Or.inl (by rw [hLsamp]; exact List.mem_filter.mpr ⟨hx, by simp [hmem]⟩)
        · exact Or.inr (by rw [hRsamp]; exact List.mem_filter.mpr ⟨hx, by simp [hmem]⟩)
      · intro hx
        rcases hx with hx | hx
        · rw [hLsamp] at hx
          exact (List.mem_filter.mp hx).1
        · rw [hRsamp] at hx
          exact (List.mem_filter.mp hx).1
    · have hpart := length_filter_partition
        (fun j => decide (j ∈ (nd.col sdim).take i)) (nd.col 0)
      have hfix : (fun j => !(decide (j ∈ (nd.col sdim).take i)))
          = (fun j => decide (¬ j ∈ (nd.col sdim).take i)) := by
        funext j
        simp [decide_not]
      rw [hfix] at hpart
      simp only [Node.numSamples]
      rw [hLsamp, hRsamp]
      exact hpart

/-- The concrete split triple of the witness dataset `W1src`. -/
def W4trip : Node × Node × Node := splitResultOf (doGreedySplit W1src W1nd [0] [0] false)

/-- The evaluated outcome of the greedy split of the witness dataset: the
split succeeds and returns exactly the components of `W4trip`. -/
theorem W4trip_eval :
    doGreedySplit W1src W1nd [0] [0] false
      = .ok (some (W4trip.1, W4trip.2.1, W4trip.2.2)) := by
  norm_num [W4trip, W1nd, W1src, doGreedySplit, findGreedySplits, candFor, argmaxQ,
    qualAt, gainAt, evalSplitsOneDim, leftStats, rightStats, incMeanVarSum, projCol,
    splitSortedIndices, pickBest, applyBestSplit, splitNodeOf, splitThresholdOf,
    splitResultOf, Node.ofIndices, populateStats, Source.allSortedIndices,
    Source.argsortCol, Source.val, Source.globalVarScale, Source.popVarQ,
    Source.colData, List.insertionSort, List.orderedInsert, List.range_succ,
    meanQ, varSumQ, sqSumQ, minQ, maxQ, Node.varSum, Node.covSumAt, Node.covAt,
    Node.cov, Node.numSamples, Node.samples, Node.col, Node.sortedIndices,
    Node.mean, Node.bbMax, Node.bbMaxAt, XV.toQ]

/-! ### The split threshold (claim C3) -/

theorem getD_map_filter (cols : List (List ℕ)) (p : ℕ → Bool) (d : ℕ) :
    (cols.map (fun c => c.filter p)).getD d [] = (cols.getD d []).filter p := by
  by_cases h : d < cols.length
  · exact getD_map_lt _ _ _ _ [] h
  · have h2 : cols.length ≤ d := le_of_not_lt h
    have h3 : (cols.map (fun c => c.filter p)).length ≤ d := by simpa using h2
    rw [List.getD_eq_getElem?_getD, List.getD_eq_getElem?_getD,
      List.getElem?_eq_none h2, List.getElem?_eq_none h3]
    simp

/-- C3 (amended): for every accepted greedy split, the stored
`split_threshold` equals the midpoint of the last left-side and first
right-side sample values along the chosen dimension (positions `i-1` and
`i` of the column sorted along that dimension), and — whenever those two
adjacent values are distinct — the threshold is not equal to any sample
value of the node along that dimension.  (When the two boundary values tie,
the threshold coincides with them; see the counterexample.) -/
theorem greedy_threshold_midpoint (S : Source) (nd : Node) (splitDims evalDims : List ℕ)
    (nd' L R : Node)
    (hds : doGreedySplit S nd splitDims evalDims false = .ok (some (nd', L, R)))
    (hsorted : ∀ s ∈ splitDims, List.Sorted (· ≤ ·) (projCol S nd s s))
    (hnodup : ∀ s ∈ splitDims, (nd.col s).Nodup)
    (hlen : ∀ s ∈ splitDims, (nd.col s).length = nd.numSamples) :
    ∃ s i, 0 < i ∧ i < nd.numSamples ∧ nd'.splitDim = some s ∧ s ∈ splitDims
      ∧ nd'.splitThreshold
          = some (((projCol S nd s s).getD (i - 1) 0 + (projCol S nd s s).getD i 0) / 2)
      ∧ ((projCol S nd s s).getD (i - 1) 0 ≠ (projCol S nd s s).getD i 0 →
          ∀ v ∈ projCol S nd s s,
            ((projCol S nd s s).getD (i - 1) 0 + (projCol S nd s s).getD i 0) / 2 ≠ v) := by
  unfold doGreedySplit at hds
  rw [findGreedySplits_plain_eq] at hds
  rcases hmatch : (splitDims.filter (fun s => ¬ nd.varSum s = 0)).map (candFor S nd evalDims)
    with _ | ⟨c, cs⟩
  · rw [hmatch] at hds
    simp [applyBestSplit] at hds
  · rw [hmatch] at hds
    simp only [applyBestSplit] at hds
    by_cases hq : 0 < (pickBest c cs).qual
    · rw [if_pos hq] at hds
      set b := pickBest c cs with hb
      have hds2 : splitNodeOf S nd b = (nd', L, R) := by
        injection hds with hds1
        injection hds1
      have hbmem : b ∈ c :: cs := pickBest_mem c cs
      rw [← hmatch] at hbmem
      obtain ⟨s0, hsfil, hbeq⟩ := List.mem_map.mp hbmem
      have hsdim : s0 ∈ splitDims ∧ nd.varSum s0 ≠ 0 := by
        have := List.mem_filter.mp hsfil
        simpa using this
      have hnpos : 0 < nd.numSamples := varSum_ne_zero_pos nd s0 hsdim.2
      have hdim : b.dim = s0 := by
        rw [← hbeq]
        simp [candFor]
      have hpt : b.point = argmaxQ (qualAt S nd evalDims s0) nd.numSamples := by
        rw [← hbeq]
        simp [candFor]
      have hqv : b.qual = qualAt S nd evalDims s0 b.point := by
        rw [← hbeq]
        simp [candFor]
      have hipos : 0 < b.point := by
        rcases Nat.eq_zero_or_pos b.point with h0 | h1
        · rw [hqv, h0, qualAt_zero] at hq
          exact absurd hq (lt_irrefl 0)
        · exact h1
      have hilt : b.point < nd.numSamples := by
        rw [hpt]
        exact argmaxQ_lt _ _ hnpos
      have hblr : b.lr = splitSortedIndices nd.sortedIndices b.dim b.point := by
        rw [← hbeq]
        simp [candFor]
      have hcollen : (nd.col s0).length = nd.numSamples := hlen s0 hsdim.1
      have hnd0 : (nd.col s0).Nodup := hnodup s0 hsdim.1
      have hndsplit : ((nd.col s0).take b.point ++ (nd.col s0).drop b.point).Nodup := by
        rw [List.take_append_drop]
        exact hnd0
      have hfil := filter_take_drop ((nd.col s0).take b.point) ((nd.col s0).drop b.point)
        hndsplit
      rw [List.take_append_drop] at hfil
      have hLcol : b.lr.1.getD b.dim [] = (nd.col s0).take b.point := by
        rw [hblr]
        simp only [splitSortedIndices, hdim]
        rw [getD_map_filter]
        simpa [Node.col] using hfil.1
      have hRcol : b.lr.2.getD b.dim [] = (nd.col s0).drop b.point := by
        rw [hblr]
        simp only [splitSortedIndices, hdim]
        rw [getD_map_filter]
        simpa [Node.col] using hfil.2
      have hnd'1 : nd' = (splitNodeOf S nd b).1 := by rw [hds2]
      have hcolpos : b.point ≤ (nd.col s0).length := by omega
      have hlast : (b.lr.1.getD b.dim []).getLastD 0 = (nd.col s0).getD (b.point - 1) 0 := by
        rw [hLcol]
        exact getLastD_take _ _ hipos hcolpos
      have hhead : (b.lr.2.getD b.dim []).headD 0 = (nd.col s0).getD b.point 0 := by
        rw [hRcol]
        exact headD_drop _ _ (by omega)
      have hproj : ∀ j, j < (nd.col s0).length →
          (projCol S nd s0 s0).getD j 0 = S.val ((nd.col s0).getD j 0) s0 := by
        intro j hj
        exact (getD_map_lt (fun idx => S.val idx s0) (nd.col s0) j 0 0 hj).symm ▸
          (getD_map_lt (fun idx => S.val idx s0) (nd.col s0) j 0 0 hj)
      have hθ : splitThresholdOf S b
          = ((projCol S nd s0 s0).getD (b.point - 1) 0 + (projCol S nd s0 s0).getD b.point 0) / 2 := by
        unfold splitThresholdOf
        rw [hlast, hhead, hdim]
        rw [hproj (b.point - 1) (by omega), hproj b.point (by omega)]
      refine ⟨s0, b.point, hipos, hilt, ?_, hsdim.1, ?_, ?_⟩
      · rw [hnd'1, splitNodeOf_parent_splitDim, hdim]
      · rw [hnd'1, splitNodeOf_parent_splitThreshold, hθ]
      · intro hab v hv
        have hxlen : (projCol S nd s0 s0).length = (nd.col s0).length := by
          simp [projCol]
        have hi1 : b.point - 1 < (projCol S nd s0 s0).length := by omega
        have hi2 : b.point < (projCol S nd s0 s0).length := by omega
        set xs := projCol S nd s0 s0 with hxs
        have hsort := hsorted s0 hsdim.1
        have hpair := List.pairwise_iff_getElem.mp hsort
        obtain ⟨j, hj, hvj⟩ := List.mem_iff_getElem.mp hv
        have hgetD1 : xs.getD (b.point - 1) 0 = xs[b.point - 1] := by
          simp [List.getD_eq_getElem?_getD, List.getElem?_eq_getElem hi1]
        have hgetD2 : xs.getD b.point 0 = xs[b.point] := by
          simp [List.getD_eq_getElem?_getD, List.getElem?_eq_getElem hi2]
        have hle : xs[b.point - 1] ≤ xs[b.point] := by
          apply hpair
          omega
        have hab2 : xs[b.point - 1] < xs[b.point] := by
          rcases lt_or_eq_of_le hle with h | h
          · exact h
          · exfalso
            apply hab
            rw [hgetD1, hgetD2, h]
        intro hcon
        rw [hgetD1, hgetD2] at hcon
        by_cases hjc : j ≤ b.point - 1
        · have hvle : v ≤ xs[b.point - 1] := by
            rcases lt_or_eq_of_le hjc with h | h
            · rw [← hvj]
              exact hpair j (b.point - 1) hj hi1 h
            · rw [← hvj]
              have : xs[j] = xs[b.point - 1] := by congr 1
              rw [this]
          nlinarith [hab2, hvle]
        · have hjge : b.point ≤ j := by omega
          have hvge : xs[b.point] ≤ v := by
            rcases lt_or_eq_of_le hjge with h | h
            · rw [← hvj]
              exact hpair b.point j hi2 hj h
            · rw [← hvj]
              have : xs[b.point] = xs[j] := by congr 1
              rw [this]
          nlinarith [hab2, hvge]
    · rw [if_neg hq] at hds
      simp at hds

/-- A dataset with a tie along the split dimension: rows `(0,0), (1,0),
(1,1), (2,1)`.  Splitting on dimension 0 with evaluation dimension 1
chooses the split point between the two tied values `1`. -/
def W3src : Source := ⟨[[0, 0], [1, 0], [1, 1], [2, 1]], 2⟩

/-- The root node over `W3src`. -/
def W3nd : Node := Node.ofIndices W3src (some W3src.allSortedIndices) none none

/-- The split triple of the accepted greedy split on `W3src`. -/
def W3trip : Node × Node × Node := splitResultOf (doGreedySplit W3src W3nd [0] [1] false)

set_option maxHeartbeats 2000000 in
/-- C3 counterexample: an accepted greedy split whose stored threshold `1`
*is* a sample value of the node along the chosen dimension (the claim
asserts the threshold is never a sample value). -/
theorem greedy_threshold_equals_sample_value :
    doGreedySplit W3src W3nd [0] [1] false
      = .ok (some (W3trip.1, W3trip.2.1, W3trip.2.2))
    ∧ W3trip.1.splitThreshold = some 1
    ∧ (1 : ℚ) ∈ projCol W3src W3nd 0 0 := by
  refine ⟨?_, ?_, ?_⟩ <;>
    norm_num [W3trip, W3nd, W3src, doGreedySplit, findGreedySplits, candFor, argmaxQ,
      qualAt, gainAt, evalSplitsOneDim, leftStats, rightStats, incMeanVarSum, projCol,
      splitSortedIndices, pickBest, applyBestSplit, splitNodeOf, splitThresholdOf,
      splitResultOf, Node.ofIndices, populateStats, Source.allSortedIndices,
      Source.argsortCol, Source.val, Source.globalVarScale, Source.popVarQ,
      Source.colData, List.insertionSort, List.orderedInsert, List.range_succ,
      meanQ, varSumQ, sqSumQ, minQ, maxQ, Node.varSum, Node.covSumAt, Node.covAt,
      Node.cov, Node.numSamples, Node.samples, Node.col, Node.sortedIndices,
      Node.mean, Node.bbMax, Node.bbMaxAt, Node.splitThreshold, XV.toQ]

theorem greedy_threshold_midpoint_witness :
    doGreedySplit W1src W1nd [0] [0] false
      = .ok (some (W4trip.1, W4trip.2.1, W4trip.2.2))
    ∧ (∀ s ∈ ([0] : List ℕ), List.Sorted (· ≤ ·) (projCol W1src W1nd s s))
    ∧ (∀ s ∈ ([0] : List ℕ), (W1nd.col s).Nodup)
    ∧ (∀ s ∈ ([0] : List ℕ), (W1nd.col s).length = W1nd.numSamples)
    ∧ (∃ s i, 0 < i ∧ i < W1nd.numSamples ∧ W4trip.1.splitDim = some s
        ∧ s ∈ ([0] : List ℕ)
        ∧ W4trip.1.splitThreshold
            = some (((projCol W1src W1nd s s).getD (i - 1) 0
                + (projCol W1src W1nd s s).getD i 0) / 2)
        ∧ ((projCol W1src W1nd s s).getD (i - 1) 0 ≠ (projCol W1src W1nd s s).getD i 0 →
            ∀ v ∈ projCol W1src W1nd s s,
              ((projCol W1src W1nd s s).getD (i - 1) 0
                + (projCol W1src W1nd s s).getD i 0) / 2 ≠ v)) := by
  have h1 : doGreedySplit W1src W1nd [0] [0] false
      = .ok (some (W4trip.1, W4trip.2.1, W4trip.2.2)) := by
    norm_num [W4trip, W1nd, W1src, doGreedySplit, findGreedySplits, candFor, argmaxQ,
      qualAt, gainAt, evalSplitsOneDim, leftStats, rightStats, incMeanVarSum, projCol,
      splitSortedIndices, pickBest, applyBestSplit, splitNodeOf, splitThresholdOf,
      splitResultOf, Node.ofIndices, populateStats, Source.allSortedIndices,
      Source.argsortCol, Source.val, Source.globalVarScale, Source.popVarQ,
      Source.colData, List.insertionSort, List.orderedInsert, List.range_succ,
      meanQ, varSumQ, sqSumQ, minQ, maxQ, Node.varSum, Node.covSumAt, Node.covAt,
      Node.cov, Node.numSamples, Node.samples, Node.col, Node.sortedIndices,
      Node.mean, Node.bbMax, Node.bbMaxAt, XV.toQ]
  have h2 : ∀ s ∈ ([0] : List ℕ), List.Sorted (· ≤ ·) (projCol W1src W1nd s s) := by
    intro s hs
    rw [List.mem_singleton] at hs
    subst hs
    have : projCol W1src W1nd 0 0 = [0, 1, 2] := by
      norm_num [W1nd, W1src, Node.ofIndices, populateStats, Source.allSortedIndices,
        Source.argsortCol, Source.val, List.insertionSort, List.orderedInsert,
        List.range_succ, projCol, Node.col, Node.sortedIndices]
    rw [this]
    simp [List.sorted_cons]
  have h3 : ∀ s ∈ ([0] : List ℕ), (W1nd.col s).Nodup := by
    intro s hs
    rw [List.mem_singleton] at hs
    subst hs
    have : W1nd.col 0 = [0, 1, 2] := by
      norm_num [W1nd, W1src, Node.ofIndices, populateStats, Source.allSortedIndices,
        Source.argsortCol, Source.val, List.insertionSort, List.orderedInsert,
        List.range_succ, Node.col, Node.sortedIndices]
    rw [this]
    simp
  have h4 : ∀ s ∈ ([0] : List ℕ), (W1nd.col s).length = W1nd.numSamples := by
    intro s hs
    rw [List.mem_singleton] at hs
    subst hs
    norm_num [W1nd, W1src, Node.ofIndices, populateStats, Source.allSortedIndices,
      Source.argsortCol, Source.val, List.insertionSort, List.orderedInsert,
      List.range_succ, Node.numSamples, Node.samples, Node.col, Node.sortedIndices]
  exact ⟨h1, h2, h3, h4,
    greedy_threshold_midpoint W1src W1nd [0] [0] W4trip.1 W4trip.2.1 W4trip.2.2 h1 h2 h3 h4⟩

/-! ### Tie-breaking of the best-split selection (claim C9) -/

theorem argmaxQ_succ (f : ℕ → ℚ) (n : ℕ) :
    argmaxQ f (n + 1) = if f n > f (argmaxQ f n) then n else argmaxQ f n := by
  unfold argmaxQ
  rw [List.range_succ, List.foldl_append]
  simp

/-- `np.argmax` returns the *first* index attaining the maximum: every
strictly earlier index has strictly smaller value. -/
theorem argmaxQ_first (f : ℕ → ℚ) (n : ℕ) :
    ∀ j < argmaxQ f n, f j < f (argmaxQ f n) := by
  induction n with
  | zero =>
      intro j hj
      simp [argmaxQ] at hj
  | succ n ih =>
      intro j hj
      rw [argmaxQ_succ] at hj ⊢
      by_cases hn : f n > f (argmaxQ f n)
      · rw [if_pos hn] at hj ⊢
        rcases lt_trichotomy j (argmaxQ f n) with h | h | h
        · exact lt_trans (ih j h) hn
        · rw [h]; exact hn
        · have hjn : j < n := hj
          have h1 : f j ≤ f (argmaxQ f n) := argmaxQ_ge f n j hjn
          exact lt_of_le_of_lt h1 hn
      · rw [if_neg hn] at hj ⊢
        exact ih j hj

/-- Python's stable descending sort makes the *first* candidate of maximal
quality win: all candidates listed before the chosen one have strictly
smaller quality. -/
theorem pickBest_first (c : SplitCand) (l : List SplitCand) :
    ∃ l1 l2, c :: l = l1 ++ (pickBest c l) :: l2
      ∧ ∀ x ∈ l1, x.qual < (pickBest c l).qual := by
  induction l generalizing c with
  | nil => exact ⟨[], [], by simp [pickBest], by simp⟩
  | cons d t ih =>
      by_cases hd : d.qual > c.qual
      · simp only [pickBest, hd, if_pos]
        obtain ⟨l1, l2, heq, hlt⟩ := ih d
        refine ⟨c :: l1, l2, ?_, ?_⟩
        · rw [List.cons_append, ← heq]
        · intro x hx
          rcases List.mem_cons.mp hx with rfl | hx2
          · exact lt_of_lt_of_le hd (pickBest_ge d t d (List.mem_cons_self d t))
          · exact hlt x hx2
      · simp only [pickBest, hd, if_neg, not_false_iff]
        obtain ⟨l1, l2, heq, hlt⟩ := ih c
        cases l1 with
        | nil =>
            simp only [List.nil_append] at heq
            injection heq with h1 h2
            refine ⟨[], d :: t, ?_, by simp⟩
            simp [← h1]
        | cons y l1' =>
            simp only [List.cons_append] at heq
            injection heq with h1 h2
            have hcq : c.qual < (pickBest c t).qual := by
              apply hlt
              rw [h1]
              exact List.mem_cons_self y l1'
            refine ⟨c :: d :: l1', l2, ?_, ?_⟩
            · simp only [List.cons_append]
              rw [← h2]
            · intro x hx
              rcases List.mem_cons.mp hx with rfl | hx2
              · exact hcq
              · rcases List.mem_cons.mp hx2 with rfl | hx3
                · exact lt_of_le_of_lt (le_of_not_lt hd) hcq
                · apply hlt
                  rw [← h1]
                  exact List.mem_cons.mpr (Or.inr hx3)

/-- C9 (amended): the best-split selection is a deterministic function of
the candidate list; ties in maximum quality are broken by the *earliest
position in the `split_dims` list* (not by lowest dimension index — see the
counterexample), and within a dimension the lowest split index attaining
the maximum is chosen. -/
theorem tie_break_by_list_position (S : Source) (nd : Node)
    (splitDims evalDims : List ℕ) (nd' L R : Node)
    (hds : doGreedySplit S nd splitDims evalDims false = .ok (some (nd', L, R))) :
    ∃ cands b, findGreedySplits S nd evalDims false splitDims = .ok cands
      ∧ b ∈ cands ∧ nd'.splitDim = some b.dim
      ∧ (∃ l1 l2, cands = l1 ++ b :: l2 ∧ ∀ x ∈ l1, x.qual < b.qual)
      ∧ (∀ j < b.point, qualAt S nd evalDims b.dim j < qualAt S nd evalDims b.dim b.point) := by
  unfold doGreedySplit at hds
  rw [findGreedySplits_plain_eq] at hds
  rcases hmatch : (splitDims.filter (fun s => ¬ nd.varSum s = 0)).map (candFor S nd evalDims)
    with _ | ⟨c, cs⟩
  · rw [hmatch] at hds
    simp [applyBestSplit] at hds
  · rw [hmatch] at hds
    simp only [applyBestSplit] at hds
    by_cases hq : 0 < (pickBest c cs).qual
    · rw [if_pos hq] at hds
      set b := pickBest c cs with hb
      have hds2 : splitNodeOf S nd b = (nd', L, R) := by
        injection hds with hds1
        injection hds1
      have hnd' : nd' = (splitNodeOf S nd b).1 := by rw [hds2]
      have hbmem : b ∈ c :: cs := pickBest_mem c cs
      rw [← hmatch] at hbmem
      obtain ⟨s0, hsfil, hbeq⟩ := List.mem_map.mp hbmem
      have hdim : b.dim = s0 := by
        rw [← hbeq]
        simp [candFor]
      have hpt : b.point = argmaxQ (qualAt S nd evalDims s0) nd.numSamples := by
        rw [← hbeq]
        simp [candFor]
      refine ⟨c :: cs, b, ?_, pickBest_mem c cs, ?_, ?_, ?_⟩
      · rw [findGreedySplits_plain_eq, hmatch]
      · rw [hnd', splitNodeOf_parent_splitDim]
      · obtain ⟨l1, l2, heq, hlt⟩ := pickBest_first c cs
        exact ⟨l1, l2, heq, hlt⟩
      · intro j hj
        rw [hdim]
        rw [hpt] at hj ⊢
        exact argmaxQ_first _ _ j hj
    · rw [if_neg hq] at hds
      simp at hds

/-- Two identical dimensions: every split quality ties across the two
candidate dimensions. -/
def W9src : Source := ⟨[[0, 0], [1, 1]], 2⟩

/-- The root node over `W9src`. -/
def W9nd : Node := Node.ofIndices W9src (some W9src.allSortedIndices) none none

/-- The split triple chosen with the candidate list `[1, 0]`. -/
def W9trip : Node × Node × Node := splitResultOf (doGreedySplit W9src W9nd [1, 0] [0, 1] false)

set_option maxHeartbeats 2000000 in
/-- C9 counterexample: with `split_dims = [1, 0]` and two dimensions of
identical data, dimension 0 is a valid candidate whose maximal quality ties
with dimension 1's, yet the split is made on dimension 1 (the first-listed
dimension), not on the lowest dimension index: the selection is *not*
independent of the order in which candidate dimensions are listed. -/
theorem tie_break_counterexample :
    doGreedySplit W9src W9nd [1, 0] [0, 1] false
      = .ok (some (W9trip.1, W9trip.2.1, W9trip.2.2))
    ∧ W9trip.1.splitDim = some 1
    ∧ qualAt W9src W9nd [0, 1] 0 1 = qualAt W9src W9nd [0, 1] 1 1
    ∧ W9nd.varSum 0 ≠ 0 := by
  refine ⟨?_, ?_, ?_, ?_⟩ <;>
    norm_num [W9trip, W9nd, W9src, doGreedySplit, findGreedySplits, candFor, argmaxQ,
      qualAt, gainAt, evalSplitsOneDim, leftStats, rightStats, incMeanVarSum, projCol,
      splitSortedIndices, pickBest, applyBestSplit, splitNodeOf, splitThresholdOf,
      splitResultOf, Node.ofIndices, populateStats, Source.allSortedIndices,
      Source.argsortCol, Source.val, Source.globalVarScale, Source.popVarQ,
      Source.colData, List.insertionSort, List.orderedInsert, List.range_succ,
      meanQ, varSumQ, sqSumQ, minQ, maxQ, Node.varSum, Node.covSumAt, Node.covAt,
      Node.cov, Node.numSamples, Node.samples, Node.col, Node.sortedIndices,
      Node.mean, Node.bbMax, Node.bbMaxAt, Node.splitDim, XV.toQ]

set_option maxHeartbeats 2000000 in
theorem tie_break_by_list_position_witness :
    doGreedySplit W9src W9nd [1, 0] [0, 1] false
      = .ok (some (W9trip.1, W9trip.2.1, W9trip.2.2))
    ∧ (∃ cands b, findGreedySplits W9src W9nd [0, 1] false [1, 0] = .ok cands
        ∧ b ∈ cands ∧ W9trip.1.splitDim = some b.dim
        ∧ (∃ l1 l2, cands = l1 ++ b :: l2 ∧ ∀ x ∈ l1, x.qual < b.qual)
        ∧ (∀ j < b.point,
            qualAt W9src W9nd [0, 1] b.dim j < qualAt W9src W9nd [0, 1] b.dim b.point)) := by
  have h : doGreedySplit W9src W9nd [1, 0] [0, 1] false
      = .ok (some (W9trip.1, W9trip.2.1, W9trip.2.2)) := by
    norm_num [W9trip, W9nd, W9src, doGreedySplit, findGreedySplits, candFor, argmaxQ,
      qualAt, gainAt, evalSplitsOneDim, leftStats, rightStats, incMeanVarSum, projCol,
      splitSortedIndices, pickBest, applyBestSplit, splitNodeOf, splitThresholdOf,
      splitResultOf, Node.ofIndices, populateStats, Source.allSortedIndices,
      Source.argsortCol, Source.val, Source.globalVarScale, Source.popVarQ,
      Source.colData, List.insertionSort, List.orderedInsert, List.range_succ,
      meanQ, varSumQ, sqSumQ, minQ, maxQ, Node.varSum, Node.covSumAt, Node.covAt,
      Node.cov, Node.numSamples, Node.samples, Node.col, Node.sortedIndices,
      Node.mean, Node.bbMax, Node.bbMaxAt, XV.toQ]
  exact ⟨h, tie_break_by_list_position W9src W9nd [1, 0] [0, 1]
    W9trip.1 W9trip.2.1 W9trip.2.2 h⟩

/-! ## Manual splits and tree reconstruction (`_do_manual_split`,
`Source.tree_from_dict`) -/

/-- `_do_manual_split(split_dim, split_threshold)`: succeed only when the
threshold lies within the node's current maximal bound for that dimension
(`bb_max[split_dim][0] <= t <= bb_max[split_dim][1]`, checked *before* any
mutation, so that a failure returns `False` with the node unchanged);
on success partition the samples at `bisect.bisect(data, threshold)` (for
the sorted column this is the number of values `≤` the threshold), narrow
the bounding boxes and construct both children. -/
def doManualSplit (S : Source) (nd : Node) (sd : ℕ) (t : ℚ) : Bool × Node :=
  if XV.leb (nd.bbMaxAt sd).1 (XV.fin t) ∧ XV.leb (XV.fin t) (nd.bbMaxAt sd).2 then
    let dataVals := (nd.col sd).map (fun i => S.val i sd)
    let splitIndex := dataVals.countP (fun x => decide (x ≤ t))
    let lr := splitSortedIndices nd.sortedIndices sd splitIndex
    let bbL := nd.bbMax.set sd ((nd.bbMaxAt sd).1, XV.fin t)
    let bbR := nd.bbMax.set sd (XV.fin t, (nd.bbMaxAt sd).2)
    let L := Node.ofIndices S (some lr.1) none (some bbL)
    let R := Node.ofIndices S (some lr.2) none (some bbR)
    (true, Node.mk nd.sortedIndices nd.mean nd.cov nd.bbMin nd.bbMax
      (some sd) (some t) (some L) (some R))
  else (false, nd)

/-- The split index of a manual split: `bisect.bisect` on the node's
sorted column, i.e. the number of values `≤` the threshold. -/
def manualSplitIndex (S : Source) (nd : Node) (sd : ℕ) (t : ℚ) : ℕ :=
  ((nd.col sd).map (fun i => S.val i sd)).countP (fun x => decide (x ≤ t))

/-- The left child built in `doManualSplit`'s success branch. -/
def manualLeft (S : Source) (nd : Node) (sd : ℕ) (t : ℚ) : Node :=
  Node.ofIndices S
    (some (splitSortedIndices nd.sortedIndices sd (manualSplitIndex S nd sd t)).1)
    none (some (nd.bbMax.set sd ((nd.bbMaxAt sd).1, XV.fin t)))

/-- The right child built in `doManualSplit`'s success branch. -/
def manualRight (S : Source) (nd : Node) (sd : ℕ) (t : ℚ) : Node :=
  Node.ofIndices S
    (some (splitSortedIndices nd.sortedIndices sd (manualSplitIndex S nd sd t)).2)
    none (some (nd.bbMax.set sd (XV.fin t, (nd.bbMaxAt sd).2)))

/-- A successful manual split returns the parent with the split directive
recorded and the two children attached. -/
theorem doManualSplit_succ (S : Source) (nd : Node) (sd : ℕ) (t : ℚ) (nd' : Node)
    (hms : doManualSplit S nd sd t = (true, nd')) :
    nd' = Node.mk nd.sortedIndices nd.mean nd.cov nd.bbMin nd.bbMax
      (some sd) (some t) (some (manualLeft S nd sd t)) (some (manualRight S nd sd t)) := by
  by_cases hadm : XV.leb (nd.bbMaxAt sd).1 (XV.fin t) ∧ XV.leb (XV.fin t) (nd.bbMaxAt sd).2
  · have hval : doManualSplit S nd sd t
        = (true, Node.mk nd.sortedIndices nd.mean nd.cov nd.bbMin nd.bbMax
            (some sd) (some t) (some (manualLeft S nd sd t))
            (some (manualRight S nd sd t))) := by
      unfold doManualSplit
      rw [if_pos hadm]
      rfl
    rw [hval] at hms
    injection hms with h1 h2
    exact h2.symm
  · exfalso
    unfold doManualSplit at hms
    rw [if_neg hadm] at hms
    injection hms with h1 h2
    exact Bool.noConfusion h1

/-- One entry of the reconstruction dictionary: the node's split directive
and the keys of its two children. -/
structure DirEntry where
  split_dim : ℕ
  split_threshold : ℚ
  left : ℕ
  right : ℕ
deriving DecidableEq, Repr

/-- Lookup of a node key in the dictionary (`n in d` / `d[n]`). -/
def lookupDir (d : List (ℕ × DirEntry)) (n : ℕ) : Option DirEntry :=
  (d.find? (fun p => p.1 == n)).map Prod.snd

/-- The representation of a directive in the Python error message
`f"Invalid split threshold for node {n}: {d[n]}"`. -/
def dirEntryRepr (e : DirEntry) : String :=
  "split_dim=" ++ toString e.split_dim
    ++ ", split_threshold=" ++ toString e.split_threshold
    ++ ", left=" ++ toString e.left ++ ", right=" ++ toString e.right

/-- The `ValueError` message raised by `tree_from_dict` for an inadmissible
directive: it names the offending node key and its directive. -/
def invalidSplitMsg (n : ℕ) (e : DirEntry) : String :=
  "Invalid split threshold for node " ++ toString n ++ ": " ++ dirEntryRepr e

/-- The `_recurse` of `tree_from_dict`: if the dictionary has a directive
for key `n`, apply the manual split (raising `ValueError` when it fails)
and recurse into both children.  Python recursion is modelled with fuel;
running out corresponds to Python's `RecursionError` on a cyclic
dictionary.  A successful manual split always produces both children, so
`getD dummyNode` on the children is never the fallback. -/
def treeFromDictAux (S : Source) (d : List (ℕ × DirEntry)) :
    ℕ → Node → ℕ → Except String Node
  | 0, _, _ => .error "maximum recursion depth exceeded"
  | fuel + 1, nd, n =>
      match lookupDir d n with
      | none => .ok nd
      | some e =>
          match doManualSplit S nd e.split_dim e.split_threshold with
          | (false, _) => .error (invalidSplitMsg n e)
          | (true, nd') =>
              match treeFromDictAux S d fuel (nd'.left.getD dummyNode) e.left with
              | .error msg => .error msg
              | .ok L' =>
                  match treeFromDictAux S d fuel (nd'.right.getD dummyNode) e.right with
                  | .error msg => .error msg
                  | .ok R' => .ok (Node.mk nd'.sortedIndices nd'.mean nd'.cov nd'.bbMin
                      nd'.bbMax nd'.splitDim nd'.splitThreshold (some L') (some R'))

/-- `tree_from_dict`: reconstruct a tree from the dictionary starting at
the root node (key 1) built over all samples. -/
def treeFromDict (S : Source) (d : List (ℕ × DirEntry)) : Except String Node :=
  treeFromDictAux S d (d.length + 1)
    (Node.ofIndices S (some S.allSortedIndices) none none) 1

/-- C6: a manual split succeeds if and only if the explicit threshold lies
within the node's current maximal bound for that dimension; on failure the
node is returned completely unchanged (the check precedes every mutation,
so no `split_dim`, `split_threshold` or children are set); and when during
reconstruction a directive's manual split fails, `tree_from_dict` aborts
with an error naming the offending node key and its directive. -/
theorem manual_split_admissibility :
    (∀ (S : Source) (nd : Node) (sd : ℕ) (t : ℚ),
      (doManualSplit S nd sd t).1 = true ↔
        (XV.leb (nd.bbMaxAt sd).1 (XV.fin t) = true
          ∧ XV.leb (XV.fin t) (nd.bbMaxAt sd).2 = true))
    ∧ (∀ (S : Source) (nd : Node) (sd : ℕ) (t : ℚ),
        (doManualSplit S nd sd t).1 = false → (doManualSplit S nd sd t).2 = nd)
    ∧ (∀ (S : Source) (d : List (ℕ × DirEntry)) (fuel : ℕ) (nd : Node) (n : ℕ)
        (e : DirEntry), lookupDir d n = some e →
        (doManualSplit S nd e.split_dim e.split_threshold).1 = false →
        treeFromDictAux S d (fuel + 1) nd n = .error (invalidSplitMsg n e)) := by
  refine ⟨?_, ?_, ?_⟩
  · intro S nd sd t
    unfold doManualSplit
    by_cases h : XV.leb (nd.bbMaxAt sd).1 (XV.fin t) ∧ XV.leb (XV.fin t) (nd.bbMaxAt sd).2
    · rw [if_pos h]
      simpa using h
    · rw [if_neg h]
      simp only [Bool.false_eq_true, false_iff]
      intro hcon
      exact h ⟨hcon.1, hcon.2⟩
  · intro S nd sd t hfail
    unfold doManualSplit at hfail ⊢
    by_cases h : XV.leb (nd.bbMaxAt sd).1 (XV.fin t) ∧ XV.leb (XV.fin t) (nd.bbMaxAt sd).2
    · rw [if_pos h] at hfail
      simp at hfail
    · rw [if_neg h]
  · intro S d fuel nd n e hlook hfail
    unfold treeFromDictAux
    rw [hlook]
    rcases hms : doManualSplit S nd e.split_dim e.split_threshold with ⟨ok, nd2⟩
    rw [hms] at hfail
    simp only at hfail
    subst hfail
    simp only [hms]

/-- A two-sample, one-dimensional dataset for the reconstruction witness. -/
def W6src : Source := ⟨[[0], [1]], 1⟩

/-- A reconstruction dictionary whose directive for node 2 (the left child,
with `bb_max[0] = (-∞, 1/2]` after the root split) carries the inadmissible
threshold `7/10`. -/
def W6dict : List (ℕ × DirEntry) :=
  [(1, ⟨0, 1/2, 2, 3⟩), (2, ⟨0, 7/10, 4, 5⟩)]

/-- The root node over `W6src`. -/
def W6root : Node := Node.ofIndices W6src (some W6src.allSortedIndices) none none

/-- The left child produced by the admissible root split at `1/2`. -/
def W6left : Node := ((doManualSplit W6src W6root 0 (1/2)).2.left).getD dummyNode

set_option maxHeartbeats 4000000 in
theorem manual_split_admissibility_witness :
    lookupDir W6dict 2 = some ⟨0, 7/10, 4, 5⟩
    ∧ (doManualSplit W6src W6left 0 (7/10)).1 = false
    ∧ treeFromDictAux W6src W6dict (0 + 1) W6left 2
        = .error (invalidSplitMsg 2 ⟨0, 7/10, 4, 5⟩)
    ∧ treeFromDict W6src W6dict = .error (invalidSplitMsg 2 ⟨0, 7/10, 4, 5⟩) := by
  have h1 : lookupDir W6dict 2 = some ⟨0, 7/10, 4, 5⟩ := rfl
  have h2 : (doManualSplit W6src W6left 0 (7/10)).1 = false := by
    norm_num [W6left, W6root, W6src, doManualSplit, splitSortedIndices, Node.ofIndices,
      populateStats, Source.allSortedIndices, Source.argsortCol, Source.val,
      List.insertionSort, List.orderedInsert, List.range_succ, meanQ, varSumQ, minQ,
      maxQ, Node.col, Node.sortedIndices, Node.bbMaxAt, Node.bbMax, Node.bbMin,
      Node.mean, Node.cov, Node.left, Node.right, XV.leb, List.countP]
  have h3 : treeFromDictAux W6src W6dict (0 + 1) W6left 2
      = .error (invalidSplitMsg 2 ⟨0, 7/10, 4, 5⟩) :=
    manual_split_admissibility.2.2 W6src W6dict 0 W6left 2 ⟨0, 7/10, 4, 5⟩ h1 h2
  refine ⟨h1, h2, h3, ?_⟩
  have h3b := manual_split_admissibility.2.2 W6src W6dict 1 W6left 2 ⟨0, 7/10, 4, 5⟩ h1 h2
  have h3c : treeFromDictAux W6src W6dict 2 W6left 2
      = .error (invalidSplitMsg 2 ⟨0, 7/10, 4, 5⟩) := by
    norm_num at h3b
    exact h3b
  have hroot : lookupDir W6dict 1 = some ⟨0, 1/2, 2, 3⟩ := rfl
  have hok : (doManualSplit W6src W6root 0 (1/2)).1 = true := by
    norm_num [doManualSplit, W6root, W6src, Node.ofIndices, populateStats,
      Source.allSortedIndices, Source.argsortCol, Source.val, List.insertionSort,
      List.orderedInsert, List.range_succ, Node.bbMaxAt, Node.bbMax, XV.leb]
  have hstep : treeFromDict W6src W6dict
      = treeFromDictAux W6src W6dict (2 + 1) W6root 1 := rfl
  rw [hstep]
  unfold treeFromDictAux
  rw [hroot]
  rcases hms : doManualSplit W6src W6root 0 (1/2) with ⟨ok, ndr⟩
  have hok2 : ok = true := by rw [hms] at hok; exact hok
  subst hok2
  have hW6left : ndr.left.getD dummyNode = W6left := by
    have : (doManualSplit W6src W6root 0 (1/2)).2 = ndr := by rw [hms]
    rw [W6left, ← this]
  simp only [hms, hW6left, h3c]

/-! ## The children of a two-sided split partition the parent (claim C4) -/

/-- The parent node returned by the admissible manual split of the
witness dataset `W6src` at threshold `1/2`. -/
def W6split : Node := (doManualSplit W6src W6root 0 (1/2)).2

/-- C4: for every non-leaf node produced by a two-sided split — greedy
(`_do_greedy_split`) or manual (`_do_manual_split`) — the two children
hold disjoint sample sets whose union is the parent's sample set, the
children's sample counts add up to the parent's, and each child's
`bb_max` equals the parent's with exactly one bound of the split
dimension narrowed to the split threshold (the left child's upper bound,
the right child's lower bound). -/
theorem split_children_partition (S : Source) :
    (∀ (nd : Node) (splitDims evalDims : List ℕ) (nd' L R : Node),
      doGreedySplit S nd splitDims evalDims false = .ok (some (nd', L, R)) →
      List.Disjoint L.samples R.samples
      ∧ (∀ x, x ∈ nd.samples ↔ x ∈ L.samples ∨ x ∈ R.samples)
      ∧ L.numSamples + R.numSamples = nd.numSamples
      ∧ ∃ s θ, nd'.splitDim = some s ∧ nd'.splitThreshold = some θ
          ∧ L.bbMax = nd.bbMax.set s ((nd.bbMaxAt s).1, XV.fin θ)
          ∧ R.bbMax = nd.bbMax.set s (XV.fin θ, (nd.bbMaxAt s).2))
    ∧ (∀ (nd : Node) (sd : ℕ) (t : ℚ) (nd' : Node),
      doManualSplit S nd sd t = (true, nd') →
      ∃ L R, nd'.left = some L ∧ nd'.right = some R
        ∧ nd'.splitDim = some sd ∧ nd'.splitThreshold = some t
        ∧ List.Disjoint L.samples R.samples
        ∧ (∀ x, x ∈ nd.samples ↔ x ∈ L.samples ∨ x ∈ R.samples)
        ∧ L.numSamples + R.numSamples = nd.numSamples
        ∧ L.bbMax = nd.bbMax.set sd ((nd.bbMaxAt sd).1, XV.fin t)
        ∧ R.bbMax = nd.bbMax.set sd (XV.fin t, (nd.bbMaxAt sd).2)) := by
  constructor
  · intro nd splitDims evalDims nd' L R hds
    unfold doGreedySplit at hds
    rw [findGreedySplits_plain_eq] at hds
    rcases hmatch : (splitDims.filter (fun s => ¬ nd.varSum s = 0)).map (candFor S nd evalDims)
      with _ | ⟨c, cs⟩
    · rw [hmatch] at hds
      simp [applyBestSplit] at hds
    · rw [hmatch] at hds
      simp only [applyBestSplit] at hds
      by_cases hq : 0 < (pickBest c cs).qual
      · rw [if_pos hq] at hds
        set b := pickBest c cs with hb
        have hds2 : splitNodeOf S nd b = (nd', L, R) := by
          injection hds with hds1
          injection hds1
        have hbmem : b ∈ c :: cs := pickBest_mem c cs
        rw [← hmatch] at hbmem
        obtain ⟨s0, hsfil, hbeq⟩ := List.mem_map.mp hbmem
        have hL : L = (splitNodeOf S nd b).2.1 := by rw [hds2]
        have hR : R = (splitNodeOf S nd b).2.2 := by rw [hds2]
        have hnd' : nd' = (splitNodeOf S nd b).1 := by rw [hds2]
        have hblr : b.lr = splitSortedIndices nd.sortedIndices b.dim b.point := by
          rw [← hbeq]
          simp [candFor]
        have hLcols : L.sortedIndices
            = (splitSortedIndices nd.sortedIndices b.dim b.point).1 := by
          rw [hL, splitNodeOf_left_cols, hblr]
        have hRcols : R.sortedIndices
            = (splitSortedIndices nd.sortedIndices b.dim b.point).2 := by
          rw [hR, splitNodeOf_right_cols, hblr]
        obtain ⟨hdis, huni, hcnt⟩ := splitSortedIndices_samples_partition nd b.dim b.point
          L R hLcols hRcols
        refine ⟨hdis, huni, hcnt, b.dim, splitThresholdOf S b, ?_, ?_, ?_, ?_⟩
        · rw [hnd']
          exact splitNodeOf_parent_splitDim S nd b
        · rw [hnd']
          exact splitNodeOf_parent_splitThreshold S nd b
        · rw [hL]
          exact splitNodeOf_left_bbMax S nd b
        · rw [hR]
          exact splitNodeOf_right_bbMax S nd b
      · rw [if_neg hq] at hds
        simp at hds
  · intro nd sd t nd' hms
    have hnd' := doManualSplit_succ S nd sd t nd' hms
    subst hnd'
    obtain ⟨hdis, huni, hcnt⟩ := splitSortedIndices_samples_partition nd sd
      (manualSplitIndex S nd sd t) (manualLeft S nd sd t) (manualRight S nd sd t) rfl rfl
    exact ⟨manualLeft S nd sd t, manualRight S nd sd t, rfl, rfl, rfl, rfl,
      hdis, huni, hcnt, rfl, rfl⟩

theorem split_children_partition_witness :
    (doGreedySplit W1src W1nd [0] [0] false
        = .ok (some (W4trip.1, W4trip.2.1, W4trip.2.2))
      ∧ (List.Disjoint W4trip.2.1.samples W4trip.2.2.samples
        ∧ (∀ x, x ∈ W1nd.samples ↔ x ∈ W4trip.2.1.samples ∨ x ∈ W4trip.2.2.samples)
        ∧ W4trip.2.1.numSamples + W4trip.2.2.numSamples = W1nd.numSamples
        ∧ ∃ s θ, W4trip.1.splitDim = some s ∧ W4trip.1.splitThreshold = some θ
            ∧ W4trip.2.1.bbMax = W1nd.bbMax.set s ((W1nd.bbMaxAt s).1, XV.fin θ)
            ∧ W4trip.2.2.bbMax = W1nd.bbMax.set s (XV.fin θ, (W1nd.bbMaxAt s).2)))
    ∧ (doManualSplit W6src W6root 0 (1/2) = (true, W6split)
      ∧ ∃ L R, W6split.left = some L ∧ W6split.right = some R
        ∧ W6split.splitDim = some 0 ∧ W6split.splitThreshold = some (1/2)
        ∧ List.Disjoint L.samples R.samples
        ∧ (∀ x, x ∈ W6root.samples ↔ x ∈ L.samples ∨ x ∈ R.samples)
        ∧ L.numSamples + R.numSamples = W6root.numSamples
        ∧ L.bbMax = W6root.bbMax.set 0 ((W6root.bbMaxAt 0).1, XV.fin (1/2))
        ∧ R.bbMax = W6root.bbMax.set 0 (XV.fin (1/2), (W6root.bbMaxAt 0).2)) := by
  have hg : doGreedySplit W1src W1nd [0] [0] false
      = .ok (some (W4trip.1, W4trip.2.1, W4trip.2.2)) := W4trip_eval
  have hok : (doManualSplit W6src W6root 0 (1/2)).1 = true := by
    norm_num [doManualSplit, W6root, W6src, Node.ofIndices, populateStats,
      Source.allSortedIndices, Source.argsortCol, Source.val, List.insertionSort,
      List.orderedInsert, List.range_succ, Node.bbMaxAt, Node.bbMax, XV.leb]
  have hm : doManualSplit W6src W6root 0 (1/2) = (true, W6split) := by
    have h : ((doManualSplit W6src W6root 0 (1/2)).1, (doManualSplit W6src W6root 0 (1/2)).2)
        = doManualSplit W6src W6root 0 (1/2) := rfl
    rw [hok] at h
    exact h.symm
  exact ⟨⟨hg, (split_children_partition W1src).1 W1nd [0] [0]
      W4trip.1 W4trip.2.1 W4trip.2.2 hg⟩,
    ⟨hm, (split_children_partition W6src).2 W6root 0 (1/2) W6split hm⟩⟩

/-! ## Best-first growth (`Source.tree_best_first`) -/

/-- The priority of a node on the best-first queue:
`np.dot(node.var_sum[eval_dims], global_var_scale[eval_dims])`. -/
def nodePriority (S : Source) (evalDims : List ℕ) (nd : Node) : ℚ :=
  (evalDims.map (fun e => nd.varSum e * S.globalVarScale e)).sum

/-- Stable descending insertion: an element is placed before the first
strictly-smaller-or-equal-priority element it precedes in the original
order, reproducing Python's stable `sort(key=priority, reverse=True)`. -/
def insertDesc (x : Node × ℚ) : List (Node × ℚ) → List (Node × ℚ)
  | [] => [x]
  | y :: t => if x.2 ≥ y.2 then x :: y :: t else y :: insertDesc x t

/-- `queue.sort(key=lambda x: x[1], reverse=True)`: stable descending sort
by priority. -/
def sortDesc (l : List (Node × ℚ)) : List (Node × ℚ) := l.foldr insertDesc []

theorem insertDesc_length (x : Node × ℚ) (l : List (Node × ℚ)) :
    (insertDesc x l).length = l.length + 1 := by
  induction l with
  | nil => simp [insertDesc]
  | cons y t ih =>
      simp only [insertDesc]
      by_cases h : x.2 ≥ y.2
      · simp [h]
      · simp [h, ih]

theorem sortDesc_length (l : List (Node × ℚ)) : (sortDesc l).length = l.length := by
  induction l with
  | nil => simp [sortDesc]
  | cons y t ih =>
      simp only [sortDesc, List.foldr_cons] at *
      rw [insertDesc_length, ih]
      simp

/-- The head of the sorted queue has maximal priority. -/
theorem sortDesc_head_ge (q : List (Node × ℚ)) (hd : Node × ℚ) (rest : List (Node × ℚ))
    (h : sortDesc q = hd :: rest) : ∀ x ∈ q, x.2 ≤ hd.2 := by
  induction q generalizing hd rest with
  | nil => simp [sortDesc] at h
  | cons a q' ih =>
      have hfold : sortDesc (a :: q') = insertDesc a (sortDesc q') := rfl
      rw [hfold] at h
      rcases hq' : sortDesc q' with _ | ⟨h', r'⟩
      · rw [hq'] at h
        simp only [insertDesc] at h
        injection h with h1 _
        intro x hx
        rcases List.mem_cons.mp hx with rfl | hx2
        · rw [h1]
        · exfalso
          cases q' with
          | nil => simp at hx2
          | cons b t =>
              have hlen := sortDesc_length (b :: t)
              rw [hq'] at hlen
              simp at hlen
      · rw [hq'] at h
        simp only [insertDesc] at h
        by_cases hcmp : a.2 ≥ h'.2
        · rw [if_pos hcmp] at h
          injection h with h1 _
          subst h1
          intro x hx
          rcases List.mem_cons.mp hx with rfl | hx2
          · exact le_refl _
          · exact le_trans (ih h' r' hq' x hx2) hcmp
        · rw [if_neg hcmp] at h
          injection h with h1 _
          subst h1
          intro x hx
          rcases List.mem_cons.mp hx with rfl | hx2
          · exact le_of_not_le hcmp
          · exact ih h' r' hq' x hx2

/-- The loop of `tree_best_first`: while the leaf count is below the bound
and the queue is nonempty, sort the queue by priority, pop the
highest-priority node and attempt a greedy split (plain mode, the call's
defaults); on success push both children with freshly computed priorities
and count one more leaf, otherwise retire the node as a finalised leaf.
Returns the remaining queue, the leaf count and the finalised leaves. -/
def bestFirstLoop (S : Source) (splitDims evalDims : List ℕ) (k : ℕ) :
    List (Node × ℚ) → ℕ → List Node → List (Node × ℚ) × ℕ × List Node
  | queue, numLeaves, finished =>
    if h : numLeaves < k ∧ 0 < queue.length then
      match hs : sortDesc queue with
      | [] => (queue, numLeaves, finished)
      | (nd, _) :: rest =>
          match doGreedySplit S nd splitDims evalDims false with
          | .ok (some (_, L, R)) =>
              bestFirstLoop S splitDims evalDims k
                (rest ++ [(L, nodePriority S evalDims L), (R, nodePriority S evalDims R)])
                (numLeaves + 1) finished
          | _ => bestFirstLoop S splitDims evalDims k rest numLeaves (finished ++ [nd])
    else (queue, numLeaves, finished)
  termination_by queue numLeaves _ => (k - numLeaves, queue.length)
  decreasing_by
  · apply Prod.Lex.left
    omega
  · have hlen : (sortDesc queue).length = queue.length := sortDesc_length queue
    rw [hs] at hlen
    simp only [List.length_cons] at hlen
    apply Prod.Lex.right
    omega

/-- `tree_best_first(split_dims, eval_dims, max_num_leaves = k)` with the
default sample set: start from the root over all samples with its priority,
one leaf counted. -/
def treeBestFirst (S : Source) (splitDims evalDims : List ℕ) (k : ℕ) :
    List (Node × ℚ) × ℕ × List Node :=
  let root := Node.ofIndices S (some S.allSortedIndices) none none
  bestFirstLoop S splitDims evalDims k [(root, nodePriority S evalDims root)] 1 []

theorem bestFirstLoop_exit (S : Source) (sd ed : List ℕ) (k : ℕ)
    (q : List (Node × ℚ)) (n : ℕ) (f : List Node)
    (h : ¬ (n < k ∧ 0 < q.length)) :
    bestFirstLoop S sd ed k q n f = (q, n, f) := by
  unfold bestFirstLoop
  rw [dif_neg h]

theorem bestFirstLoop_step_succ (S : Source) (sd ed : List ℕ) (k : ℕ)
    (q : List (Node × ℚ)) (n : ℕ) (f : List Node) (nd : Node) (p : ℚ)
    (rest : List (Node × ℚ)) (nd' L R : Node)
    (hn : n < k) (hs : sortDesc q = (nd, p) :: rest)
    (hsplit : doGreedySplit S nd sd ed false = .ok (some (nd', L, R))) :
    bestFirstLoop S sd ed k q n f
      = bestFirstLoop S sd ed k
          (rest ++ [(L, nodePriority S ed L), (R, nodePriority S ed R)]) (n + 1) f := by
  have hq : 0 < q.length := by
    have := sortDesc_length q
    rw [hs] at this
    simp at this
    omega
  conv_lhs => rw [bestFirstLoop]
  rw [dif_pos ⟨hn, hq⟩]
  split
  next heq =>
    rw [hs] at heq
    exact absurd heq (by simp)
  next nd2 p2 rest2 heq =>
    rw [hs] at heq
    injection heq with h1 h2
    injection h1 with h1a h1b
    subst h1a
    subst h2
    simp only [hsplit]

theorem bestFirstLoop_step_fail (S : Source) (sd ed : List ℕ) (k : ℕ)
    (q : List (Node × ℚ)) (n : ℕ) (f : List Node) (nd : Node) (p : ℚ)
    (rest : List (Node × ℚ))
    (hn : n < k) (hs : sortDesc q = (nd, p) :: rest)
    (hfail : ∀ t : Node × Node × Node, doGreedySplit S nd sd ed false ≠ .ok (some t)) :
    bestFirstLoop S sd ed k q n f = bestFirstLoop S sd ed k rest n (f ++ [nd]) := by
  have hq : 0 < q.length := by
    have := sortDesc_length q
    rw [hs] at this
    simp at this
    omega
  conv_lhs => rw [bestFirstLoop]
  rw [dif_pos ⟨hn, hq⟩]
  split
  next heq =>
    rw [hs] at heq
    exact absurd heq (by simp)
  next nd2 p2 rest2 heq =>
    rw [hs] at heq
    injection heq with h1 h2
    injection h1 with h1a h1b
    subst h1a
    subst h2
    rcases hsplit : doGreedySplit S nd sd ed false with e | o
    · simp only [hsplit]
    · rcases o with _ | t
      · simp only [hsplit]
      · exact absurd hsplit (hfail t)

/-- The nodes popped from the queue during a run of the best-first loop,
in pop order: every popped node is the target of exactly one greedy split
attempt, so this list records which splits the run attempts. -/
def poppedNodes (S : Source) (splitDims evalDims : List ℕ) (k : ℕ) :
    List (Node × ℚ) → ℕ → List Node
  | queue, numLeaves =>
    if h : numLeaves < k ∧ 0 < queue.length then
      match hs : sortDesc queue with
      | [] => []
      | (nd, _) :: rest =>
          match doGreedySplit S nd splitDims evalDims false with
          | .ok (some (_, L, R)) =>
              nd :: poppedNodes S splitDims evalDims k
                (rest ++ [(L, nodePriority S evalDims L), (R, nodePriority S evalDims R)])
                (numLeaves + 1)
          | _ => nd :: poppedNodes S splitDims evalDims k rest numLeaves
    else []
  termination_by queue numLeaves => (k - numLeaves, queue.length)
  decreasing_by
  · apply Prod.Lex.left
    omega
  · have hlen : (sortDesc queue).length = queue.length := sortDesc_length queue
    rw [hs] at hlen
    simp only [List.length_cons] at hlen
    apply Prod.Lex.right
    omega

theorem poppedNodes_exit (S : Source) (sd ed : List ℕ) (k : ℕ)
    (q : List (Node × ℚ)) (n : ℕ) (h : ¬ (n < k ∧ 0 < q.length)) :
    poppedNodes S sd ed k q n = [] := by
  unfold poppedNodes
  rw [dif_neg h]

theorem poppedNodes_step_succ (S : Source) (sd ed : List ℕ) (k : ℕ)
    (q : List (Node × ℚ)) (n : ℕ) (nd : Node) (p : ℚ)
    (rest : List (Node × ℚ)) (nd' L R : Node)
    (hn : n < k) (hs : sortDesc q = (nd, p) :: rest)
    (hsplit : doGreedySplit S nd sd ed false = .ok (some (nd', L, R))) :
    poppedNodes S sd ed k q n
      = nd :: poppedNodes S sd ed k
          (rest ++ [(L, nodePriority S ed L), (R, nodePriority S ed R)]) (n + 1) := by
  have hq : 0 < q.length := by
    have := sortDesc_length q
    rw [hs] at this
    simp at this
    omega
  conv_lhs => rw [poppedNodes]
  rw [dif_pos ⟨hn, hq⟩]
  split
  next heq =>
    rw [hs] at heq
    exact absurd heq (by simp)
  next nd2 p2 rest2 heq =>
    rw [hs] at heq
    injection heq with h1 h2
    injection h1 with h1a h1b
    subst h1a
    subst h2
    simp only [hsplit]

theorem poppedNodes_step_fail (S : Source) (sd ed : List ℕ) (k : ℕ)
    (q : List (Node × ℚ)) (n : ℕ) (nd : Node) (p : ℚ)
    (rest : List (Node × ℚ))
    (hn : n < k) (hs : sortDesc q = (nd, p) :: rest)
    (hfail : ∀ t : Node × Node × Node, doGreedySplit S nd sd ed false ≠ .ok (some t)) :
    poppedNodes S sd ed k q n = nd :: poppedNodes S sd ed k rest n := by
  have hq : 0 < q.length := by
    have := sortDesc_length q
    rw [hs] at this
    simp at this
    omega
  conv_lhs => rw [poppedNodes]
  rw [dif_pos ⟨hn, hq⟩]
  split
  next heq =>
    rw [hs] at heq
    exact absurd heq (by simp)
  next nd2 p2 rest2 heq =>
    rw [hs] at heq
    injection heq with h1 h2
    injection h1 with h1a h1b
    subst h1a
    subst h2
    rcases hsplit : doGreedySplit S nd sd ed false with e | o
    · simp only [hsplit]
    · rcases o with _ | t
      · simp only [hsplit]
      · exact absurd hsplit (hfail t)

theorem bestFirstLoop_reaches (S : Source) (sd ed : List ℕ) (k : ℕ) :
    ∀ (M : ℕ) (q : List (Node × ℚ)) (n : ℕ) (f : List Node),
      2 * (k - n) + q.length ≤ M → n ≤ k →
      ((bestFirstLoop S sd ed k q n f).2.1 = k
        ∨ (bestFirstLoop S sd ed k q n f).1 = []) := by
  intro M
  induction M with
  | zero =>
      intro q n f hM hnk
      have hq : q.length = 0 := by omega
      rw [bestFirstLoop_exit S sd ed k q n f (by omega)]
      right
      exact List.length_eq_zero.mp hq
  | succ M ih =>
      intro q n f hM hnk
      by_cases hcond : n < k ∧ 0 < q.length
      · obtain ⟨hn, hq⟩ := hcond
        rcases hs : sortDesc q with _ | ⟨⟨nd, p⟩, rest⟩
        · exfalso
          have := sortDesc_length q
          rw [hs] at this
          simp at this
          omega
        · have hrest : rest.length + 1 = q.length := by
            have := sortDesc_length q
            rw [hs] at this
            simpa using this
          rcases hsplit : doGreedySplit S nd sd ed false with e | o
          · rw [bestFirstLoop_step_fail S sd ed k q n f nd p rest hn hs
              (by intro t hcon; rw [hsplit] at hcon; exact Except.noConfusion hcon)]
            exact ih rest n (f ++ [nd]) (by omega) hnk
          · rcases o with _ | ⟨nd', L, R⟩
            · rw [bestFirstLoop_step_fail S sd ed k q n f nd p rest hn hs
                (by intro t hcon; rw [hsplit] at hcon;
                    injection hcon with h1; exact Option.noConfusion h1)]
              exact ih rest n (f ++ [nd]) (by omega) hnk
            · rw [bestFirstLoop_step_succ S sd ed k q n f nd p rest nd' L R hn hs hsplit]
              refine ih _ (n + 1) f ?_ hn
              simp only [List.length_append, List.length_cons, List.length_nil]
              omega
      · rw [bestFirstLoop_exit S sd ed k q n f hcond]
        rcases Nat.lt_or_ge n k with h | h
        · right
          rcases Nat.eq_zero_or_pos q.length with h0 | h0
          · exact List.length_eq_zero.mp h0
          · exact absurd ⟨h, h0⟩ hcond
        · left
          show n = k
          omega

theorem bestFirstLoop_leaf_count (S : Source) (sd ed : List ℕ) (k : ℕ) :
    ∀ (M : ℕ) (q : List (Node × ℚ)) (n : ℕ) (f : List Node),
      2 * (k - n) + q.length ≤ M → n = f.length + q.length →
      (bestFirstLoop S sd ed k q n f).2.1
        = (bestFirstLoop S sd ed k q n f).2.2.length
          + (bestFirstLoop S sd ed k q n f).1.length := by
  intro M
  induction M with
  | zero =>
      intro q n f hM hinv
      have hq : q.length = 0 := by omega
      rw [bestFirstLoop_exit S sd ed k q n f (by omega)]
      simpa [hq] using hinv
  | succ M ih =>
      intro q n f hM hinv
      by_cases hcond : n < k ∧ 0 < q.length
      · obtain ⟨hn, hq⟩ := hcond
        rcases hs : sortDesc q with _ | ⟨⟨nd, p⟩, rest⟩
        · exfalso
          have := sortDesc_length q
          rw [hs] at this
          simp at this
          omega
        · have hrest : rest.length + 1 = q.length := by
            have := sortDesc_length q
            rw [hs] at this
            simpa using this
          rcases hsplit : doGreedySplit S nd sd ed false with e | o
          · rw [bestFirstLoop_step_fail S sd ed k q n f nd p rest hn hs
              (by intro t hcon; rw [hsplit] at hcon; exact Except.noConfusion hcon)]
            refine ih rest n (f ++ [nd]) (by omega) ?_
            simp only [List.length_append, List.length_cons, List.length_nil]
            omega
          · rcases o with _ | ⟨nd', L, R⟩
            · rw [bestFirstLoop_step_fail S sd ed k q n f nd p rest hn hs
                (by intro t hcon; rw [hsplit] at hcon;
                    injection hcon with h1; exact Option.noConfusion h1)]
              refine ih rest n (f ++ [nd]) (by omega) ?_
              simp only [List.length_append, List.length_cons, List.length_nil]
              omega
            · rw [bestFirstLoop_step_succ S sd ed k q n f nd p rest nd' L R hn hs hsplit]
              refine ih _ (n + 1) f ?_ ?_
              · simp only [List.length_append, List.length_cons, List.length_nil]
                omega
              · simp only [List.length_append, List.length_cons, List.length_nil]
                omega
      · rw [bestFirstLoop_exit S sd ed k q n f hcond]
        simpa using hinv

/-- If every node popped during the run splits successfully, the loop
stops with exactly `k` counted leaves: each iteration pops one node, pushes
two children, and raises the leaf count by one until it reaches `k`. -/
theorem bestFirstLoop_popped_succeed (S : Source) (sd ed : List ℕ) (k : ℕ) :
    ∀ (M : ℕ) (q : List (Node × ℚ)) (n : ℕ) (f : List Node),
      2 * (k - n) + q.length ≤ M → n ≤ k → 0 < q.length →
      (∀ nd ∈ poppedNodes S sd ed k q n, ∃ t : Node × Node × Node,
        doGreedySplit S nd sd ed false = .ok (some t)) →
      (bestFirstLoop S sd ed k q n f).2.1 = k := by
  intro M
  induction M with
  | zero =>
      intro q n f hM hnk hq hall
      omega
  | succ M ih =>
      intro q n f hM hnk hq hall
      by_cases hn : n < k
      · rcases hs : sortDesc q with _ | ⟨⟨nd, p⟩, rest⟩
        · exfalso
          have := sortDesc_length q
          rw [hs] at this
          simp at this
          omega
        · have hrest : rest.length + 1 = q.length := by
            have := sortDesc_length q
            rw [hs] at this
            simpa using this
          rcases hsplit : doGreedySplit S nd sd ed false with e | o
          · exfalso
            have hmem : nd ∈ poppedNodes S sd ed k q n := by
              rw [poppedNodes_step_fail S sd ed k q n nd p rest hn hs
                (fun t ht => by rw [hsplit] at ht; exact Except.noConfusion ht)]
              exact List.mem_cons_self nd _
            obtain ⟨t, ht⟩ := hall nd hmem
            rw [hsplit] at ht
            exact Except.noConfusion ht
          · rcases o with _ | ⟨nd', L, R⟩
            · exfalso
              have hmem : nd ∈ poppedNodes S sd ed k q n := by
                rw [poppedNodes_step_fail S sd ed k q n nd p rest hn hs
                  (fun t ht => by
                    rw [hsplit] at ht
                    injection ht with h1
                    exact Option.noConfusion h1)]
                exact List.mem_cons_self nd _
              obtain ⟨t, ht⟩ := hall nd hmem
              rw [hsplit] at ht
              injection ht with h1
              exact Option.noConfusion h1
            · rw [bestFirstLoop_step_succ S sd ed k q n f nd p rest nd' L R hn hs hsplit]
              refine ih _ (n + 1) f ?_ hn ?_ ?_
              · simp only [List.length_append, List.length_cons, List.length_nil]
                omega
              · simp only [List.length_append, List.length_cons, List.length_nil]
                omega
              · intro x hx
                refine hall x ?_
                rw [poppedNodes_step_succ S sd ed k q n nd p rest nd' L R hn hs hsplit]
                exact List.mem_cons_of_mem nd hx
      · have hnk2 : n = k := by omega
        rw [bestFirstLoop_exit S sd ed k q n f (by omega)]
        exact hnk2

/-- C5: best-first growth pops the queue entry with the highest priority
(priority = dot product of the node's variance sums over the evaluation
dimensions with the global variance scale), pushes both children with
freshly computed priorities on a successful split, and — starting from one
root leaf — terminates with exactly `k` counted leaves when every split
attempted during the run (every node the loop pops, recorded by
`poppedNodes`) succeeds, and with fewer leaves only when the queue empties
first; the leaf counter always equals the number of finalised leaves plus
the remaining queue entries. -/
theorem best_first_growth (S : Source) (splitDims evalDims : List ℕ) (k : ℕ) :
    (∀ (q : List (Node × ℚ)) (hd : Node × ℚ) (rest : List (Node × ℚ)),
      sortDesc q = hd :: rest → ∀ x ∈ q, x.2 ≤ hd.2)
    ∧ (∀ (q : List (Node × ℚ)) (n : ℕ) (f : List Node) (nd : Node) (p : ℚ)
        (rest : List (Node × ℚ)) (nd' L R : Node),
        n < k → sortDesc q = (nd, p) :: rest →
        doGreedySplit S nd splitDims evalDims false = .ok (some (nd', L, R)) →
        bestFirstLoop S splitDims evalDims k q n f
          = bestFirstLoop S splitDims evalDims k
              (rest ++ [(L, nodePriority S evalDims L), (R, nodePriority S evalDims R)])
              (n + 1) f)
    ∧ (∀ (q : List (Node × ℚ)) (n : ℕ) (f : List Node), n ≤ k →
        ((bestFirstLoop S splitDims evalDims k q n f).2.1 = k
          ∨ (bestFirstLoop S splitDims evalDims k q n f).1 = []))
    ∧ (∀ (q : List (Node × ℚ)) (n : ℕ) (f : List Node), n = f.length + q.length →
        (bestFirstLoop S splitDims evalDims k q n f).2.1
          = (bestFirstLoop S splitDims evalDims k q n f).2.2.length
            + (bestFirstLoop S splitDims evalDims k q n f).1.length)
    ∧ ((∀ nd ∈ poppedNodes S splitDims evalDims k
          [(Node.ofIndices S (some S.allSortedIndices) none none,
            nodePriority S evalDims (Node.ofIndices S (some S.allSortedIndices) none none))] 1,
          ∃ t : Node × Node × Node,
            doGreedySplit S nd splitDims evalDims false = .ok (some t)) →
        1 ≤ k → (treeBestFirst S splitDims evalDims k).2.1 = k)
    ∧ (1 ≤ k →
        ((treeBestFirst S splitDims evalDims k).2.1 = k
          ∨ (treeBestFirst S splitDims evalDims k).1 = [])
        ∧ (treeBestFirst S splitDims evalDims k).2.1
            = (treeBestFirst S splitDims evalDims k).2.2.length
              + (treeBestFirst S splitDims evalDims k).1.length) := by
  refine ⟨?_, ?_, ?_, ?_, ?_, ?_⟩
  · intro q hd rest h x hx
    exact sortDesc_head_ge q hd rest h x hx
  · intro q n f nd p rest nd' L R hn hs hsplit
    exact bestFirstLoop_step_succ S splitDims evalDims k q n f nd p rest nd' L R hn hs hsplit
  · intro q n f hnk
    exact bestFirstLoop_reaches S splitDims evalDims k (2 * (k - n) + q.length) q n f
      le_rfl hnk
  · intro q n f hinv
    exact bestFirstLoop_leaf_count S splitDims evalDims k (2 * (k - n) + q.length) q n f
      le_rfl hinv
  · intro hall hk
    unfold treeBestFirst
    exact bestFirstLoop_popped_succeed S splitDims evalDims k (2 * (k - 1) + 1) _ 1 []
      le_rfl hk (by simp) hall
  · intro hk
    constructor
    · unfold treeBestFirst
      exact bestFirstLoop_reaches S splitDims evalDims k (2 * (k - 1) + 1) _ 1 [] le_rfl hk
    · unfold treeBestFirst
      exact bestFirstLoop_leaf_count S splitDims evalDims k (2 * (k - 1) + 1) _ 1 []
        le_rfl (by simp)

theorem best_first_growth_witness :
    (∀ nd ∈ poppedNodes W1src [0] [0] 2
        [(W1nd, nodePriority W1src [0] W1nd)] 1,
      ∃ t : Node × Node × Node, doGreedySplit W1src nd [0] [0] false = .ok (some t))
    ∧ (treeBestFirst W1src [0] [0] 2).2.1 = 2
    ∧ (((treeBestFirst W1src [0] [0] 2).2.1 = 2 ∨ (treeBestFirst W1src [0] [0] 2).1 = [])
      ∧ (treeBestFirst W1src [0] [0] 2).2.1
          = (treeBestFirst W1src [0] [0] 2).2.2.length
            + (treeBestFirst W1src [0] [0] 2).1.length) := by
  have hsplit : doGreedySplit W1src W1nd [0] [0] false
      = .ok (some (W4trip.1, W4trip.2.1, W4trip.2.2)) := W4trip_eval
  have htr : poppedNodes W1src [0] [0] 2
      [(W1nd, nodePriority W1src [0] W1nd)] 1 = [W1nd] := by
    rw [poppedNodes_step_succ W1src [0] [0] 2
      [(W1nd, nodePriority W1src [0] W1nd)] 1 W1nd (nodePriority W1src [0] W1nd) []
      W4trip.1 W4trip.2.1 W4trip.2.2 (by norm_num) rfl hsplit]
    rw [poppedNodes_exit W1src [0] [0] 2 _ 2 (by simp)]
  have hall : ∀ nd ∈ poppedNodes W1src [0] [0] 2
      [(W1nd, nodePriority W1src [0] W1nd)] 1,
      ∃ t : Node × Node × Node, doGreedySplit W1src nd [0] [0] false = .ok (some t) := by
    intro nd hnd
    rw [htr] at hnd
    rw [List.mem_singleton] at hnd
    subst hnd
    exact ⟨(W4trip.1, W4trip.2.1, W4trip.2.2), hsplit⟩
  refine ⟨hall, ?_, ?_⟩
  · exact (best_first_growth W1src [0] [0] 2).2.2.2.2.1 hall (by norm_num)
  · exact (best_first_growth W1src [0] [0] 2).2.2.2.2.2 (by norm_num)

/-! ## Membership evaluation (`Node.membership`)

A query component is absent (`None`, wildcard), a scalar, or a `(min,
max)` interval; the Python code dispatches between the scalar and interval
handling by catching the exceptions the scalar operations raise on tuples,
which is an explicit tagged-union dispatch observably (per the design
note).  A scalar NaN is caught by the `np.isnan` test and treated as a
wildcard. -/
inductive QComp where
  | wild : QComp
  | scalar : XV → QComp
  | interval : XV → XV → QComp
deriving DecidableEq, Repr

/-- The membership mode string: `"mean"`, `"min"`, `"max"` or `"fuzzy"`. -/
inductive MMode where
  | mean : MMode
  | mn : MMode
  | mx : MMode
  | fuzzy : MMode
deriving DecidableEq, Repr

/-- Exceptions of `membership`: `NotImplementedError` for an interval in
fuzzy mode, and the `ValueError` of Python's `min([])` when no dimension
contributed a fuzzy value. -/
inductive MErr where
  | notImplemented : MErr
  | emptySeq : MErr
deriving DecidableEq, Repr

/-- The per-dimension fuzzy value of a scalar query component: `none`
models the immediate `return 0` for a component outside `bb_max`;
otherwise full membership inside `bb_min`, or the linear interpolation
between the two bounding boxes. -/
def fuzzyDimVal (xd : XV) (bmin bmax : XV × XV) : Option XV :=
  let toMaxL := XV.sub xd bmax.1
  let toMaxU := XV.sub xd bmax.2
  if ¬ (XV.geb toMaxL (XV.fin 0) ∧ XV.leb toMaxU (XV.fin 0)) then none
  else
    let toMinL := XV.sub xd bmin.1
    let aboveMinL := XV.geb toMinL (XV.fin 0)
    let toMinU := XV.sub xd bmin.2
    let belowMinU := XV.leb toMinU (XV.fin 0)
    if aboveMinL ∧ belowMinU then some (XV.fin 1)
    else if ¬ aboveMinL then some (XV.div toMaxL (XV.sub toMaxL toMinL))
    else some (XV.div toMaxU (XV.sub toMaxU toMinU))

/-- The outcome of processing one dimension of a query: an early return
(`return 0` or a raised exception) or continuation with the updated
`per_dim` accumulator. -/
inductive StepRes where
  | ret : Except MErr XV → StepRes
  | cont : List XV → StepRes

/-- Processing of one `(query component, bb_min, bb_max, mean)` tuple of
the `membership` loop. -/
def memStep (mode : MMode) (contain : Bool) (c : QComp) (bmin bmax : XV × XV)
    (mean : XV) (perDim : List XV) : StepRes :=
  match c with
  | .wild =>
      if mode = .fuzzy then .cont (perDim ++ [XV.fin 1]) else .cont perDim
  | .scalar xd =>
      if xd = XV.nan then
        (if mode = .fuzzy then .cont (perDim ++ [XV.fin 1]) else .cont perDim)
      else
        match mode with
        | .mean =>
            if XV.eqb xd mean then .cont perDim else .ret (.ok (XV.fin 0))
        | .mn =>
            if XV.geb xd bmin.1 ∧ XV.leb xd bmin.2 then .cont perDim
            else .ret (.ok (XV.fin 0))
        | .mx =>
            if XV.geb xd bmax.1 ∧ XV.leb xd bmax.2 then .cont perDim
            else .ret (.ok (XV.fin 0))
        | .fuzzy =>
            match fuzzyDimVal xd bmin bmax with
            | none => .ret (.ok (XV.fin 0))
            | some v => .cont (perDim ++ [v])
  | .interval lo hi =>
      match mode with
      | .fuzzy => .ret (.error .notImplemented)
      | .mean =>
          if XV.leb lo mean ∧ XV.leb mean hi then .cont perDim
          else .ret (.ok (XV.fin 0))
      | .mn =>
          if contain then
            (if ¬ (XV.geb lo bmin.1) ∨ XV.geb hi bmin.2 then .ret (.ok (XV.fin 0))
             else .cont perDim)
          else
            (if ¬ (XV.geb hi bmin.1) ∨ XV.geb lo bmin.2 then .ret (.ok (XV.fin 0))
             else .cont perDim)
      | .mx =>
          if contain then
            (if ¬ (XV.geb lo bmax.1) ∨ XV.geb hi bmax.2 then .ret (.ok (XV.fin 0))
             else .cont perDim)
          else
            (if ¬ (XV.geb hi bmax.1) ∨ XV.geb lo bmax.2 then .ret (.ok (XV.fin 0))
             else .cont perDim)

/-- The value returned after the dimension loop: `"fuzzy"` mode returns
`abs(min(per_dim))` with Python `min` semantics (`ValueError` on an empty
sequence), every other mode returns 1. -/
def memFinish (mode : MMode) (perDim : List XV) : Except MErr XV :=
  if mode = .fuzzy then
    match perDim with
    | [] => .error .emptySeq
    | h :: t => .ok (XV.xabs (pythonMin (h :: t)))
  else .ok (XV.fin 1)

/-- The dimension loop of `membership`. -/
def membershipGo (mode : MMode) (contain : Bool) :
    List (QComp × ((XV × XV) × ((XV × XV) × XV))) → List XV → Except MErr XV
  | [], perDim => memFinish mode perDim
  | (c, (bmin, (bmax, mean))) :: rest, perDim =>
      match memStep mode contain c bmin bmax mean perDim with
      | .ret r => r
      | .cont pd => membershipGo mode contain rest pd

/-- `Node.membership(x, mode, contain)`: zip the query with `bb_min`,
`bb_max` and `mean` (the zip stops at the shortest sequence, as Python`s
`zip` does) and run the dimension loop. -/
def membership (nd : Node) (x : List QComp) (mode : MMode) (contain : Bool) :
    Except MErr XV :=
  membershipGo mode contain (x.zip (nd.bbMin.zip (nd.bbMax.zip nd.mean))) []

/-- The list of per-dimension fuzzy values of a query, `none` when some
dimension rejects (immediate 0) or an interval component occurs. -/
def fuzzyVals : List (QComp × ((XV × XV) × ((XV × XV) × XV))) → Option (List XV)
  | [] => some []
  | (c, (bmin, (bmax, _))) :: rest =>
      match c with
      | .wild => (fuzzyVals rest).map (fun t => XV.fin 1 :: t)
      | .scalar xd =>
          if xd = XV.nan then (fuzzyVals rest).map (fun t => XV.fin 1 :: t)
          else
            match fuzzyDimVal xd bmin bmax with
            | none => none
            | some v => (fuzzyVals rest).map (fun t => v :: t)
      | .interval _ _ => none

/-- When every dimension contributes a fuzzy value, the loop returns
`abs(min(per_dim))` over the accumulated values. -/
theorem membershipGo_fuzzy_eq_min (contain : Bool) :
    ∀ (l : List (QComp × ((XV × XV) × ((XV × XV) × XV)))) (vals acc : List XV),
      fuzzyVals l = some vals → acc ++ vals ≠ [] →
      membershipGo .fuzzy contain l acc = .ok (XV.xabs (pythonMin (acc ++ vals))) := by
  intro l
  induction l with
  | nil =>
      intro vals acc hv hne
      simp only [fuzzyVals, Option.some.injEq] at hv
      subst hv
      simp only [List.append_nil] at hne ⊢
      cases acc with
      | nil => exact absurd rfl hne
      | cons h t => simp [membershipGo, memFinish]
  | cons p rest ih =>
      intro vals acc hv hne
      obtain ⟨c, bmin, bmax, mean⟩ := p
      cases c with
      | wild =>
          simp only [fuzzyVals] at hv
          rcases hrest : fuzzyVals rest with _ | vs
          · rw [hrest] at hv
            simp at hv
          · rw [hrest] at hv
            simp only [Option.map_some', Option.some.injEq] at hv
            subst hv
            have hstep : membershipGo .fuzzy contain
                ((QComp.wild, (bmin, (bmax, mean))) :: rest) acc
                = membershipGo .fuzzy contain rest (acc ++ [XV.fin 1]) := by
              simp [membershipGo, memStep]
            rw [hstep, ih vs (acc ++ [XV.fin 1]) hrest (by simp)]
            congr 1
            simp
      | scalar xd =>
          by_cases hnan : xd = XV.nan
          · simp only [fuzzyVals, hnan, if_pos] at hv
            rcases hrest : fuzzyVals rest with _ | vs
            · rw [hrest] at hv
              simp at hv
            · rw [hrest] at hv
              simp only [Option.map_some', Option.some.injEq] at hv
              subst hv
              have hstep : membershipGo .fuzzy contain
                  ((QComp.scalar xd, (bmin, (bmax, mean))) :: rest) acc
                  = membershipGo .fuzzy contain rest (acc ++ [XV.fin 1]) := by
                simp [membershipGo, memStep, hnan]
              rw [hstep, ih vs (acc ++ [XV.fin 1]) hrest (by simp)]
              congr 1
              simp
          · simp only [fuzzyVals, hnan, if_neg, not_false_iff] at hv
            rcases hfz : fuzzyDimVal xd bmin bmax with _ | v
            · rw [hfz] at hv
              simp at hv
            · rw [hfz] at hv
              rcases hrest : fuzzyVals rest with _ | vs
              · rw [hrest] at hv
                simp at hv
              · rw [hrest] at hv
                simp only [Option.map_some', Option.some.injEq] at hv
                subst hv
                have hstep : membershipGo .fuzzy contain
                    ((QComp.scalar xd, (bmin, (bmax, mean))) :: rest) acc
                    = membershipGo .fuzzy contain rest (acc ++ [v]) := by
                  simp [membershipGo, memStep, hnan, hfz]
                rw [hstep, ih vs (acc ++ [v]) hrest (by simp)]
                congr 1
                simp
      | interval lo hi =>
          simp [fuzzyVals] at hv

/-- If some dimension's scalar component is rejected (outside `bb_max`) and
no earlier component is an interval, the loop returns 0 regardless of the
other dimensions. -/
theorem membershipGo_fuzzy_reject (contain : Bool) :
    ∀ (l : List (QComp × ((XV × XV) × ((XV × XV) × XV)))) (d : ℕ) (acc : List XV)
      (hd : d < l.length),
      (∀ j (hj : j < l.length), j < d → ∀ lo hi, (l[j]).1 ≠ QComp.interval lo hi) →
      (∀ xd bmin bmax mean, l[d] = (QComp.scalar xd, (bmin, (bmax, mean))) →
        xd ≠ XV.nan ∧ fuzzyDimVal xd bmin bmax = none) →
      (∃ xd bmin bmax mean, l[d] = (QComp.scalar xd, (bmin, (bmax, mean)))) →
      membershipGo .fuzzy contain l acc = .ok (XV.fin 0) := by
  intro l
  induction l with
  | nil =>
      intro d acc hd
      simp at hd
  | cons p rest ih =>
      intro d acc hd hnoint hrej hex
      obtain ⟨c, bmin, bmax, mean⟩ := p
      cases d with
      | zero =>
          obtain ⟨xd, bmin', bmax', mean', heq⟩ := hex
          simp only [List.getElem_cons_zero] at heq
          obtain ⟨hnan, hnone⟩ := hrej xd bmin' bmax' mean' (by simpa using heq)
          injection heq with h1 h2
          subst h1
          injection h2 with h2a h2b
          subst h2a
          injection h2b with h2c h2d
          subst h2c
          simp [membershipGo, memStep, hnan, hnone]
      | succ d' =>
          have hd' : d' < rest.length := by
            simp at hd
            omega
          have hstep : ∀ acc', membershipGo .fuzzy contain ((c, (bmin, (bmax, mean))) :: rest) acc'
              = .ok (XV.fin 0) ∨
              ∃ acc2, membershipGo .fuzzy contain ((c, (bmin, (bmax, mean))) :: rest) acc'
                = membershipGo .fuzzy contain rest acc2 := by
            intro acc'
            cases c with
            | wild =>
                refine Or.inr ⟨acc' ++ [XV.fin 1], ?_⟩
                simp [membershipGo, memStep]
            | scalar xd =>
                by_cases hnan : xd = XV.nan
                · refine Or.inr ⟨acc' ++ [XV.fin 1], ?_⟩
                  simp [membershipGo, memStep, hnan]
                · rcases hfz : fuzzyDimVal xd bmin bmax with _ | v
                  · refine Or.inl ?_
                    simp [membershipGo, memStep, hnan, hfz]
                  · refine Or.inr ⟨acc' ++ [v], ?_⟩
                    simp [membershipGo, memStep, hnan, hfz]
            | interval lo hi =>
                exfalso
                exact hnoint 0 (by simp) (by omega) lo hi (by simp)
          rcases hstep acc with h | ⟨acc2, h⟩
          · exact h
          · rw [h]
            refine ih d' acc2 hd' ?_ ?_ ?_
            · intro j hj hjd lo hi
              have := hnoint (j + 1) (by simp; omega) (by omega) lo hi
              simpa using this
            · intro xd bmin' bmax' mean' heq
              exact hrej xd bmin' bmax' mean' (by simpa using heq)
            · obtain ⟨xd, bmin', bmax', mean', heq⟩ := hex
              exact ⟨xd, bmin', bmax', mean', by simpa using heq⟩

/-- C7 (amended): in fuzzy mode, a wildcard contributes full membership 1;
a scalar strictly outside `bb_max` in some dimension (with no interval
component) makes the total membership 0 immediately regardless of the
other dimensions; a scalar inside `bb_min` (and inside `bb_max`)
contributes 1; any other in-`bb_max` scalar contributes a linearly
interpolated value in the *half-open* interval `[0, 1)` — the value is 0
exactly on the `bb_max` boundary, and lies in the open interval `(0, 1)`
for scalars strictly inside `bb_max` (the claim's open interval fails on
the boundary, see the counterexample); the returned total membership is
the minimum over the per-dimension values. -/
theorem fuzzy_membership_behaviour :
    (∀ (contain : Bool) (z : (XV × XV) × ((XV × XV) × XV))
        (rest : List (QComp × ((XV × XV) × ((XV × XV) × XV)))) (acc : List XV),
      membershipGo .fuzzy contain ((QComp.wild, z) :: rest) acc
        = membershipGo .fuzzy contain rest (acc ++ [XV.fin 1]))
    ∧ (∀ (x l u : ℚ) (bmin : XV × XV), (x < l ∨ u < x) →
        fuzzyDimVal (XV.fin x) bmin (XV.fin l, XV.fin u) = none)
    ∧ (∀ (nd : Node) (x : List QComp) (contain : Bool) (d : ℕ)
        (hd : d < (x.zip (nd.bbMin.zip (nd.bbMax.zip nd.mean))).length),
        (∀ c ∈ x, ∀ lo hi, c ≠ QComp.interval lo hi) →
        (∀ xd bmin bmax mean,
          ((x.zip (nd.bbMin.zip (nd.bbMax.zip nd.mean)))[d])
            = (QComp.scalar xd, (bmin, (bmax, mean))) →
          xd ≠ XV.nan ∧ fuzzyDimVal xd bmin bmax = none) →
        (∃ xd bmin bmax mean,
          ((x.zip (nd.bbMin.zip (nd.bbMax.zip nd.mean)))[d])
            = (QComp.scalar xd, (bmin, (bmax, mean)))) →
        membership nd x .fuzzy contain = .ok (XV.fin 0))
    ∧ (∀ (xd : XV) (bmin bmax : XV × XV),
        XV.geb (XV.sub xd bmax.1) (XV.fin 0) = true →
        XV.leb (XV.sub xd bmax.2) (XV.fin 0) = true →
        XV.geb (XV.sub xd bmin.1) (XV.fin 0) = true →
        XV.leb (XV.sub xd bmin.2) (XV.fin 0) = true →
        fuzzyDimVal xd bmin bmax = some (XV.fin 1))
    ∧ (∀ (x Ml Mu ml mu : ℚ), Ml ≤ x → x ≤ Mu → ¬ (ml ≤ x ∧ x ≤ mu) →
        ∃ v : ℚ, fuzzyDimVal (XV.fin x) (XV.fin ml, XV.fin mu) (XV.fin Ml, XV.fin Mu)
            = some (XV.fin v)
          ∧ 0 ≤ v ∧ v < 1 ∧ (Ml < x ∧ x < Mu → 0 < v))
    ∧ (∀ (nd : Node) (x : List QComp) (contain : Bool) (vals : List XV),
        fuzzyVals (x.zip (nd.bbMin.zip (nd.bbMax.zip nd.mean))) = some vals →
        vals ≠ [] →
        membership nd x .fuzzy contain = .ok (XV.xabs (pythonMin vals))) := by
  refine ⟨?_, ?_, ?_, ?_, ?_, ?_⟩
  · intro contain z rest acc
    obtain ⟨bmin, bmax, mean⟩ := z
    rfl
  · intro x l u bmin h
    unfold fuzzyDimVal
    rw [if_pos]
    intro hcon
    obtain ⟨h1, h2⟩ := hcon
    dsimp only at h1 h2
    simp only [XV.sub, XV.geb, XV.leb, decide_eq_true_eq] at h1 h2
    rcases h with h | h
    · linarith
    · linarith
  · intro nd x contain d hd hnoint hrej hex
    unfold membership
    refine membershipGo_fuzzy_reject contain _ d [] hd ?_ hrej hex
    intro j hj _ lo hi
    have hjx : j < x.length := by
      rw [List.length_zip] at hj
      omega
    rw [List.getElem_zip]
    exact hnoint x[j] (List.getElem_mem hjx) lo hi
  · intro xd bmin bmax h1 h2 h3 h4
    unfold fuzzyDimVal
    rw [if_neg, if_pos]
    · exact ⟨h3, h4⟩
    · intro hcon
      exact hcon ⟨h1, h2⟩
  · intro x Ml Mu ml mu hMl hMu hnotin
    unfold fuzzyDimVal
    simp only [XV.sub, XV.geb, XV.leb, decide_eq_true_eq]
    rw [if_neg (not_not_intro ⟨by linarith, by linarith⟩)]
    by_cases hml : ml ≤ x
    · have hmu : mu < x := by
        by_contra hcon
        exact hnotin ⟨hml, le_of_not_lt hcon⟩
      rw [if_neg (fun hcon => by have := hcon.2; linarith),
        if_neg (not_not_intro (by linarith))]
      have hmuMu : mu < Mu := lt_of_lt_of_le hmu hMu
      have hden : (x - Mu) - (x - mu) = mu - Mu := by ring
      have hdenne : mu - Mu ≠ 0 := by linarith
      refine ⟨(x - Mu) / (mu - Mu), ?_, ?_, ?_, ?_⟩
      · rw [hden]
        simp only [XV.div]
        rw [if_neg hdenne]
      · rw [div_nonneg_iff]
        right
        exact ⟨by linarith, by linarith⟩
      · have heq : (x - Mu) / (mu - Mu) = (Mu - x) / (Mu - mu) := by
          rw [div_eq_div_iff (by linarith) (by linarith)]
          ring
        rw [heq, div_lt_one (by linarith)]
        linarith
      · intro hstrict
        have heq : (x - Mu) / (mu - Mu) = (Mu - x) / (Mu - mu) := by
          rw [div_eq_div_iff (by linarith) (by linarith)]
          ring
        rw [heq]
        apply div_pos
        · linarith [hstrict.2]
        · linarith
    · have hxml : x < ml := lt_of_not_le hml
      rw [if_neg (fun hcon => by have := hcon.1; linarith),
        if_pos (by intro hcon; linarith)]
      have hmlMl : Ml < ml := lt_of_le_of_lt hMl hxml
      have hden : (x - Ml) - (x - ml) = ml - Ml := by ring
      have hdenne : ml - Ml ≠ 0 := by linarith
      refine ⟨(x - Ml) / (ml - Ml), ?_, ?_, ?_, ?_⟩
      · rw [hden]
        simp only [XV.div]
        rw [if_neg hdenne]
      · exact div_nonneg (by linarith) (by linarith)
      · rw [div_lt_one (by linarith)]
        linarith
      · intro hstrict
        exact div_pos (by linarith [hstrict.1]) (by linarith)
  · intro nd x contain vals hv hne
    unfold membership
    have := membershipGo_fuzzy_eq_min contain _ vals [] hv (by simpa using hne)
    simpa using this

/-- A one-dimensional source with no data rows, used to build nodes with
prescribed bounding boxes. -/
def W7src : Source := ⟨[], 1⟩

/-- A node with minimal bounding box `[1, 2]` and maximal bounding box
`[0, 3]` in its single dimension. -/
def W7nd : Node :=
  Node.ofIndices W7src none (some [(XV.fin 1, XV.fin 2)]) (some [(XV.fin 0, XV.fin 3)])

/-- C7 counterexample: the scalar 0 sits on the `bb_max` boundary of
`W7nd` — not strictly outside `bb_max` and not inside `bb_min` — so the
claim asserts a contribution in the open interval `(0, 1)`; the code
returns total membership exactly 0. -/
theorem fuzzy_boundary_counterexample :
    membership W7nd [QComp.scalar (XV.fin 0)] MMode.fuzzy false = .ok (XV.fin 0)
    ∧ ((0 : ℚ) ≤ 0 ∧ (0 : ℚ) ≤ 3)
    ∧ ¬ ((1 : ℚ) ≤ 0 ∧ (0 : ℚ) ≤ 2)
    ∧ ¬ (0 < (0 : ℚ)) := by
  refine ⟨?_, by norm_num, by norm_num, by norm_num⟩
  norm_num [W7nd, W7src, membership, membershipGo, memStep, memFinish, fuzzyDimVal,
    Node.ofIndices, populateStats, Node.bbMin, Node.bbMax, Node.mean, pythonMin,
    XV.sub, XV.geb, XV.leb, XV.div, XV.xabs, XV.ltb, List.range_succ]
  norm_num [show (XV.fin 0 = XV.nan) = False from by simp, pythonMin]

theorem fuzzy_membership_behaviour_witness :
    ((0 : ℚ) ≤ 1) ∧ ((1 : ℚ) ≤ 3) ∧ (¬ ((2 : ℚ) ≤ 1 ∧ (1 : ℚ) ≤ 2)) ∧
    (∃ v : ℚ, fuzzyDimVal (XV.fin 1) (XV.fin 2, XV.fin 2) (XV.fin 0, XV.fin 3)
        = some (XV.fin v) ∧ 0 ≤ v ∧ v < 1 ∧ ((0 : ℚ) < 1 ∧ (1 : ℚ) < 3 → 0 < v)) :=
  ⟨by norm_num, by norm_num, by norm_num,
    fuzzy_membership_behaviour.2.2.2.2.1 1 0 3 2 2 (by norm_num) (by norm_num)
      (by norm_num)⟩

/-! ## Empty nodes (claim C8) -/

theorem map_const_range {α : Type} (D : ℕ) (c : α) :
    (List.range D).map (fun _ => c) = List.replicate D c := by
  induction D with
  | zero => simp
  | succ D ih =>
      rw [List.range_succ, List.map_append, ih, List.replicate_succ']
      simp

theorem getD_replicate {α : Type} (i n : ℕ) (x d : α) :
    (List.replicate n x).getD i d = if i < n then x else d := by
  by_cases h : i < n
  · rw [if_pos h]
    have h2 : i < (List.replicate n x).length := by simpa using h
    simp [List.getD_eq_getElem?_getD, List.getElem?_eq_getElem h2]
  · rw [if_neg h]
    have h2 : (List.replicate n x).length ≤ i := by simpa using le_of_not_lt h
    simp [List.getD_eq_getElem?_getD, List.getElem?_eq_none h2]

theorem pythonMin_all_nan (h : XV) (t : List XV)
    (hall : ∀ v ∈ h :: t, v = XV.nan) : pythonMin (h :: t) = XV.nan := by
  have hh : h = XV.nan := hall h (List.mem_cons_self h t)
  subst hh
  unfold pythonMin
  have key : ∀ (t' : List XV), (∀ v ∈ t', v = XV.nan) →
      t'.foldl (fun acc x => if XV.ltb x acc then x else acc) XV.nan = XV.nan := by
    intro t'
    induction t' with
    | nil => intro _; rfl
    | cons a t'' ih =>
        intro hall'
        have ha : a = XV.nan := hall' a (List.mem_cons_self a t'')
        subst ha
        simp only [List.foldl_cons, XV.ltb, if_neg]
        exact ih (fun v hv => hall' v (List.mem_cons.mpr (Or.inr hv)))
  exact key t (fun v hv => hall v (List.mem_cons.mpr (Or.inr hv)))

/-- The per-dimension fuzzy value of a finite scalar against the NaN
minimal and infinite maximal bounding box of a fresh empty node is NaN. -/
theorem fuzzyDimVal_empty (q : ℚ) :
    fuzzyDimVal (XV.fin q) (XV.nan, XV.nan) (XV.ninf, XV.pinf) = some XV.nan := rfl

theorem membershipGo_fuzzy_all_nan (contain : Bool) :
    ∀ (l : List (QComp × ((XV × XV) × ((XV × XV) × XV)))),
      (∀ p ∈ l, (∃ q : ℚ, p.1 = QComp.scalar (XV.fin q))
        ∧ p.2 = ((XV.nan, XV.nan), ((XV.ninf, XV.pinf), XV.nan))) →
      ∀ acc : List XV, (∀ v ∈ acc, v = XV.nan) → (l = [] → acc ≠ []) →
      membershipGo .fuzzy contain l acc = .ok XV.nan := by
  intro l
  induction l with
  | nil =>
      intro _ acc hacc hne
      have hacc2 : acc ≠ [] := hne rfl
      cases acc with
      | nil => exact absurd rfl hacc2
      | cons h t =>
          simp only [membershipGo, memFinish, if_pos rfl]
          rw [pythonMin_all_nan h t hacc]
          rfl
  | cons p rest ih =>
      intro hall acc hacc _
      obtain ⟨⟨q, hq⟩, hz⟩ := hall p (List.mem_cons_self p rest)
      obtain ⟨c, z⟩ := p
      simp only at hq hz
      subst hq
      subst hz
      have hstep : membershipGo .fuzzy contain
          ((QComp.scalar (XV.fin q), ((XV.nan, XV.nan), ((XV.ninf, XV.pinf), XV.nan))) :: rest)
            acc
          = membershipGo .fuzzy contain rest (acc ++ [XV.nan]) := by
        simp [membershipGo, memStep, fuzzyDimVal_empty]
      rw [hstep]
      refine ih (fun p hp => hall p (List.mem_cons.mpr (Or.inr hp))) (acc ++ [XV.nan]) ?_
        (by simp)
      intro v hv
      rcases List.mem_append.mp hv with h | h
      · exact hacc v h
      · simpa using h

theorem headD_replicate_nil (D : ℕ) : (List.replicate D ([] : List ℕ)).headD [] = [] := by
  cases D <;> simp [List.replicate_succ]

/-- The statistics of a node populated with zero samples. -/
theorem emptyNode_populate (S : Source) :
    populateStats S (List.replicate S.numDims [])
      = (List.replicate S.numDims XV.nan,
         List.replicate S.numDims (XV.nan, XV.nan),
         (List.range S.numDims).map
           (fun _ => (List.range S.numDims).map (fun _ => (0 : ℚ)))) := by
  unfold populateStats
  rw [headD_replicate_nil]
  simp [map_const_range]

/-- C8 (amended): a node constructed with zero samples has NaN-filled mean
and minimal bounding box and an all-zero covariance matrix (hence zero
`cov_sum` and `var_sum`), and this is not an error; membership against
such a node does not crash: a finite scalar query returns 0 in `"mean"`
and `"min"` modes, while in fuzzy mode the NaN minimal bounding box
propagates and the result is NaN — *not* 0 as the claim states (see the
counterexample). -/
theorem empty_node_behaviour :
    (∀ S : Source, (Node.ofIndices S none none none).numSamples = 0)
    ∧ (∀ S : Source,
        (Node.ofIndices S none none none).mean = List.replicate S.numDims XV.nan)
    ∧ (∀ S : Source, (Node.ofIndices S none none none).bbMin
        = List.replicate S.numDims (XV.nan, XV.nan))
    ∧ (∀ (S : Source) (d e : ℕ), (Node.ofIndices S none none none).covAt d e = 0
        ∧ (Node.ofIndices S none none none).covSumAt d e = 0
        ∧ (Node.ofIndices S none none none).varSum d = 0)
    ∧ (∀ (S : Source) (q : ℚ) (xs : List QComp) (contain : Bool), 0 < S.numDims →
        membership (Node.ofIndices S none none none) (QComp.scalar (XV.fin q) :: xs)
          MMode.mean contain = .ok (XV.fin 0))
    ∧ (∀ (S : Source) (q : ℚ) (xs : List QComp) (contain : Bool), 0 < S.numDims →
        membership (Node.ofIndices S none none none) (QComp.scalar (XV.fin q) :: xs)
          MMode.mn contain = .ok (XV.fin 0))
    ∧ (∀ (S : Source) (qs : List ℚ) (contain : Bool), 0 < S.numDims → qs ≠ [] →
        membership (Node.ofIndices S none none none)
          (qs.map (fun q => QComp.scalar (XV.fin q))) MMode.fuzzy contain
          = .ok XV.nan) := by
  have hcov : ∀ (S : Source) (d e : ℕ),
      (Node.ofIndices S none none none).covAt d e = 0 := by
    intro S d e
    simp only [Node.ofIndices, Node.covAt, Node.cov, Option.getD_none, emptyNode_populate]
    rw [map_const_range, getD_replicate]
    by_cases h : d < S.numDims
    · rw [if_pos h, map_const_range, getD_replicate]
      by_cases h2 : e < S.numDims
      · rw [if_pos h2]
      · rw [if_neg h2]
    · rw [if_neg h]
      simp
  refine ⟨?_, ?_, ?_, ?_, ?_, ?_, ?_⟩
  · intro S
    simp only [Node.ofIndices, Node.numSamples, Node.samples, Node.col,
      Node.sortedIndices, Option.getD_none]
    rw [getD_replicate]
    split <;> simp
  · intro S
    simp [Node.ofIndices, Node.mean, emptyNode_populate]
  · intro S
    simp [Node.ofIndices, Node.bbMin, emptyNode_populate]
  · intro S d e
    refine ⟨hcov S d e, ?_, ?_⟩
    · simp [Node.covSumAt, hcov]
    · simp [Node.varSum, Node.covSumAt, hcov]
  · intro S q xs contain hD
    obtain ⟨D, hDeq⟩ : ∃ D, S.numDims = D + 1 := ⟨S.numDims - 1, by omega⟩
    simp only [membership, Node.ofIndices, Node.bbMin, Node.bbMax, Node.mean,
      Option.getD_none, emptyNode_populate]
    rw [hDeq]
    simp only [List.replicate_succ, List.zip_cons_cons]
    rfl
  · intro S q xs contain hD
    obtain ⟨D, hDeq⟩ : ∃ D, S.numDims = D + 1 := ⟨S.numDims - 1, by omega⟩
    simp only [membership, Node.ofIndices, Node.bbMin, Node.bbMax, Node.mean,
      Option.getD_none, emptyNode_populate]
    rw [hDeq]
    simp only [List.replicate_succ, List.zip_cons_cons]
    rfl
  · intro S qs contain hD hqs
    unfold membership
    apply membershipGo_fuzzy_all_nan
    · intro p hp
      obtain ⟨c1, pa, pc, pd⟩ := p
      obtain ⟨hp1, hp2⟩ := List.of_mem_zip hp
      constructor
      · obtain ⟨q, _, hq⟩ := List.mem_map.mp hp1
        exact ⟨q, hq.symm⟩
      · simp only [Node.ofIndices, Node.bbMin, Node.bbMax, Node.mean,
          Option.getD_none, emptyNode_populate] at hp2
        obtain ⟨ha, hb⟩ := List.of_mem_zip hp2
        obtain ⟨hc, hd⟩ := List.of_mem_zip hb
        have h1 : pa = (XV.nan, XV.nan) := List.eq_of_mem_replicate ha
        have h2 : pc = (XV.ninf, XV.pinf) := List.eq_of_mem_replicate hc
        have h3 : pd = XV.nan := List.eq_of_mem_replicate hd
        simp only
        rw [h1, h2, h3]
    · intro v hv
      simp at hv
    · intro hl
      have hlen := congrArg List.length hl
      simp only [List.length_zip, List.length_map, List.length_nil,
        Node.ofIndices, Node.bbMin, Node.bbMax, Node.mean, Option.getD_none,
        emptyNode_populate, List.length_replicate] at hlen
      have hq : 0 < qs.length := List.length_pos.mpr hqs
      omega

/-- A one-sample, one-dimensional source; the node is built with *zero*
samples over it. -/
def W8src : Source := ⟨[[0]], 1⟩

/-- A node constructed with zero samples (`Node(source)`). -/
def W8nd : Node := Node.ofIndices W8src none none none

/-- C8 counterexample: fuzzy membership of a finite scalar against the
empty node returns NaN (the NaN minimal bounding box propagates through
the interpolation and Python's `min`), not the claimed "no match
(membership 0)". -/
theorem empty_node_fuzzy_nan :
    W8nd.numSamples = 0
    ∧ membership W8nd [QComp.scalar (XV.fin 0)] MMode.fuzzy false = .ok XV.nan
    ∧ XV.nan ≠ XV.fin 0 := by
  refine ⟨?_, ?_, by simp⟩
  · norm_num [W8nd, W8src, Node.ofIndices, populateStats, Node.numSamples,
      Node.samples, Node.col, Node.sortedIndices]
  · norm_num [W8nd, W8src, membership, membershipGo, memStep, memFinish, fuzzyDimVal,
      Node.ofIndices, populateStats, Node.bbMin, Node.bbMax, Node.mean, pythonMin,
      XV.sub, XV.geb, XV.leb, XV.div, XV.xabs, XV.ltb, List.range_succ]
    norm_num [show (XV.fin (0:ℚ) = XV.nan) = False from by simp, pythonMin, XV.ltb,
      XV.xabs]

theorem empty_node_behaviour_witness :
    (0 < W8src.numDims) ∧ ([(1 : ℚ)] ≠ []) ∧
    membership (Node.ofIndices W8src none none none)
      ([(1 : ℚ)].map (fun q => QComp.scalar (XV.fin q))) MMode.fuzzy false
      = .ok XV.nan :=
  ⟨by norm_num [W8src], by simp,
    empty_node_behaviour.2.2.2.2.2.2 W8src [1] false (by norm_num [W8src]) (by simp)⟩

end Hypertree
